import Mathlib

/-!
# Verification of the hledger-formatter core engine

This development gives a shallow embedding, in Lean 4, of the core text engine
of the hledger-formatter repository (`src/extension.ts`, shared by the CLI and
the editor extension): line classification, date parsing, amount
parsing/formatting, posting alignment, transaction segmentation, chronological
sorting, comment toggling, option normalization and balancing-amount inference.

Modelling conventions:
* A JavaScript string is modelled as `List Char` (`Str`).  All the engine's
  inputs are plain text, and its regexes are re-expressed as explicit
  deterministic parser functions that reproduce the backtracking order of the
  JavaScript regex engine on the relevant grammars.
* JavaScript numbers are modelled as rationals (`ℚ`).  The engine only ever
  produces numbers by parsing decimal digit strings and adding/negating them,
  so the rational model is exact; `NaN` is modelled by `Option`.
* Whitespace (`\s`, `trim`) is modelled by the ASCII whitespace characters
  (space, tab, CR, LF, FF, VT), the only ones that occur in journal text.
* `Array.prototype.sort` (guaranteed stable by the ECMAScript spec) is
  modelled by a stable insertion sort with the same comparator.
-/

namespace HledgerFmt

/-- JavaScript strings, modelled as lists of characters. -/
abbrev Str := List Char

/-- ASCII whitespace, the model of the JS `\s` class / `trim` for journal text. -/
def jsWs (c : Char) : Bool :=
  c = ' ' || c = '\t' || c = '\n' || c = '\r' || c = '\x0b' || c = '\x0c'

/-- Decimal digit test (JS `\d` / `[0-9]`). -/
def isDigitCh (c : Char) : Bool :=
  '0' ≤ c && c ≤ '9'

/-- JS `String.prototype.trimStart`. -/
def trimL (s : Str) : Str := s.dropWhile jsWs

/-- JS `String.prototype.trimEnd`. -/
def trimR (s : Str) : Str := (s.reverse.dropWhile jsWs).reverse

/-- JS `String.prototype.trim`. -/
def trimBoth (s : Str) : Str := trimR (trimL s)

/-- `text.split('\n')`. -/
def splitLines (s : Str) : List Str :=
  match s with
  | [] => [[]]
  | c :: rest =>
    match splitLines rest with
    | [] => [[]]
    | l :: ls => if c = '\n' then [] :: l :: ls else (c :: l) :: ls

/-- `lines.join('\n')`. -/
def joinLines (ls : List Str) : Str :=
  match ls with
  | [] => []
  | [l] => l
  | l :: ls => l ++ '\n' :: joinLines ls

/-- `' '.repeat(n)` (and similar paddings). -/
def spaces (n : Nat) : Str := List.replicate n ' '

/-- Numeric value of a decimal digit character. -/
def digitVal (c : Char) : Nat := c.toNat - '0'.toNat

/-- The decimal digit character for `n < 10`. -/
def digitCh (n : Nat) : Char := Char.ofNat ('0'.toNat + n)

/-- Fuel-indexed decimal printing of a natural number (most significant first). -/
def natDigitsAux : Nat → Nat → Str
  | 0, _ => []
  | fuel + 1, n =>
    if n < 10 then [digitCh n]
    else natDigitsAux fuel (n / 10) ++ [digitCh (n % 10)]

/-- Decimal digit string of a natural number, the model of JS number-to-string
for the non-negative integers the engine prints. -/
def natDigits (n : Nat) : Str := natDigitsAux (n + 1) n

/-- Value of a decimal digit string (most significant first). -/
def digitsToNat (ds : Str) : Nat := ds.foldl (fun acc c => 10 * acc + digitVal c) 0

/-- `String.prototype.padStart(len, '0')`. -/
def padZeros (len : Nat) (s : Str) : Str :=
  List.replicate (len - s.length) '0' ++ s

/-- Take the maximal leading run of decimal digits, returning it and the rest. -/
def spanDigits (s : Str) : Str × Str := (s.takeWhile isDigitCh, s.dropWhile isDigitCh)

/-- Model of JS `parseFloat` on the digit/comma/dot strings produced by the
amount grammar: maximal digit run, optional `.` followed by a digit run, value
as an exact rational; `none` models `NaN` (no leading digits). -/
def parseFloatQ (s : Str) : Option ℚ :=
  if (s.takeWhile isDigitCh).isEmpty then none
  else
    match s.dropWhile isDigitCh with
    | '.' :: rest2 =>
      some ((digitsToNat (s.takeWhile isDigitCh) : ℚ) +
        (digitsToNat (rest2.takeWhile isDigitCh) : ℚ) /
          ((10 : ℚ) ^ (rest2.takeWhile isDigitCh).length))
    | _ => some ((digitsToNat (s.takeWhile isDigitCh) : ℚ))

/-- `numStr.replace(',', '.')` — JS `replace` with a string pattern replaces
only the first occurrence. -/
def replaceFirstCommaByDot : Str → Str
  | [] => []
  | c :: rest => if c = ',' then '.' :: rest else c :: replaceFirstCommaByDot rest

/-- `parseNumber` (`src/extension.ts`): European decimal-comma handling, then
`parseFloat` with all thousands commas removed. -/
def parseNumber (numStr : Str) : Option ℚ :=
  if numStr.contains ',' && !numStr.contains '.' then
    parseFloatQ (replaceFirstCommaByDot numStr)
  else
    parseFloatQ (numStr.filter (fun c => c ≠ ','))

/-! ## Formatter options (`FormatterOptions`, `normalizeFormatterOptions`) -/

/-- `AmountAlignment` union type. -/
inductive AmountAlignment
  | fixedColumn
  | widest
deriving DecidableEq, Repr

/-- `NegativeCommodityStyle` union type. -/
inductive NegativeCommodityStyle
  | signBeforeSymbol
  | symbolBeforeSign
deriving DecidableEq, Repr

/-- `DateFormatStyle` union type: `YYYY-MM-DD`, `YYYY/MM/DD`, `YYYY.MM.DD`. -/
inductive DateFormatStyle
  | ymdDash
  | ymdSlash
  | ymdDot
deriving DecidableEq, Repr

/-- `FormatterOptions`.  The two numeric fields are naturals: the normalizer
always produces non-negative integers for them. -/
structure FormatterOptions where
  amountColumnPosition : Nat
  amountAlignment : AmountAlignment
  indentationWidth : Nat
  negativeCommodityStyle : NegativeCommodityStyle
  dateFormat : DateFormatStyle
  commentCharacter : Char
deriving DecidableEq, Repr

/-- `DEFAULT_FORMATTER_OPTIONS`. -/
def DEFAULT_FORMATTER_OPTIONS : FormatterOptions :=
  { amountColumnPosition := 42
    amountAlignment := .widest
    indentationWidth := 4
    negativeCommodityStyle := .symbolBeforeSign
    dateFormat := .ymdDash
    commentCharacter := ';' }

/-- A JavaScript value as it may appear in a field of a `Partial<FormatterOptions>`
coming from an untyped caller: a number (modelled exactly as a rational), a
string, `undefined`, or any other value. -/
inductive JVal
  | vnum (q : ℚ)
  | vstr (s : Str)
  | vundef
  | vother
deriving DecidableEq

/-- A partial options object: `none` models an absent key; `some v` a key
present with value `v` (possibly of the wrong type, possibly `undefined`). -/
structure PartialOptions where
  amountColumnPosition : Option JVal := none
  amountAlignment : Option JVal := none
  indentationWidth : Option JVal := none
  negativeCommodityStyle : Option JVal := none
  dateFormat : Option JVal := none
  commentCharacter : Option JVal := none
deriving DecidableEq

/-- The argument of `normalizeFormatterOptions` (and of the public entry
points): absent, a bare column number (backward compatibility), or a partial
options object. -/
inductive NormInput
  | noArg
  | col (q : ℚ)
  | opts (p : PartialOptions)

/-- Spread-merge of one field: `{...DEFAULT_FORMATTER_OPTIONS, ...options}`.
An absent key receives the default (injected with its JS type); a present key
keeps its value, even when that value is `undefined`. -/
def mergeField (dflt : JVal) : Option JVal → JVal
  | none => dflt
  | some v => v

/-- `typeof x === 'number' ? Math.max(0, Math.floor(x)) : fallback`. -/
def coerceNum (fallback : Nat) : JVal → Nat
  | .vnum q => (max 0 ⌊q⌋).toNat
  | _ => fallback

/-- `normalizeFormatterOptions` (`src/extension.ts`). -/
def normalizeFormatterOptions (optionsOrColumn : NormInput) : FormatterOptions :=
  match optionsOrColumn with
  | .col q =>
    -- `{ ...DEFAULT_FORMATTER_OPTIONS, amountColumnPosition: optionsOrColumn }`:
    -- every other field is the (well-typed) default.
    { amountColumnPosition := coerceNum 42 (.vnum q)
      amountAlignment := .widest
      indentationWidth := 4
      negativeCommodityStyle := .symbolBeforeSign
      dateFormat := .ymdDash
      commentCharacter := ';' }
  | .noArg =>
    { amountColumnPosition := 42
      amountAlignment := .widest
      indentationWidth := 4
      negativeCommodityStyle := .symbolBeforeSign
      dateFormat := .ymdDash
      commentCharacter := ';' }
  | .opts p =>
    let mACP := mergeField (.vnum 42) p.amountColumnPosition
    let mAA := mergeField (.vstr ('w' :: 'i' :: 'd' :: 'e' :: 's' :: 't' :: [])) p.amountAlignment
    let mIW := mergeField (.vnum 4) p.indentationWidth
    let mNS := mergeField (.vstr ("symbolBeforeSign".toList)) p.negativeCommodityStyle
    let mDF := mergeField (.vstr ("YYYY-MM-DD".toList)) p.dateFormat
    let mCC := mergeField (.vstr (';' :: [])) p.commentCharacter
    { amountColumnPosition := coerceNum 42 mACP
      amountAlignment := if mAA = .vstr ("widest".toList) then .widest else .fixedColumn
      indentationWidth := coerceNum 4 mIW
      negativeCommodityStyle :=
        if mNS = .vstr ("symbolBeforeSign".toList) then .symbolBeforeSign else .signBeforeSymbol
      dateFormat :=
        if mDF = .vstr ("YYYY/MM/DD".toList) then .ymdSlash
        else if mDF = .vstr ("YYYY.MM.DD".toList) then .ymdDot
        else .ymdDash
      commentCharacter :=
        if mCC = .vstr ('#' :: []) then '#'
        else if mCC = .vstr ('*' :: []) then '*'
        else ';' }

/-! ## Date parsing (`extractDateComponents`, `formatDate`, `toIsoDate`) -/

/-- `DateComponents`. -/
structure DateComponents where
  year : Nat
  month : Nat
  day : Nat
deriving DecidableEq, Repr

/-- `(\d{1,2})\2` of the transaction-date pattern: a two-digit month followed
by the captured separator, or (backtracking) a one-digit month followed by it.
Returns the month value, the consumed characters, and the rest after the
second separator. -/
def matchMonthSep (sep : Char) (s : Str) : Option (Nat × Str × Str) :=
  match s with
  | m1 :: m2 :: s2 :: rest =>
    if isDigitCh m1 && isDigitCh m2 && s2 = sep then
      some (10 * digitVal m1 + digitVal m2, [m1, m2, s2], rest)
    else if isDigitCh m1 && m2 = sep then
      some (digitVal m1, [m1, m2], s2 :: rest)
    else none
  | [m1, s1] =>
    if isDigitCh m1 && s1 = sep then some (digitVal m1, [m1, s1], []) else none
  | _ => none

/-- Final `(\d{1,2})` of the transaction-date pattern (greedy). -/
def matchDay (s : Str) : Option (Nat × Str × Str) :=
  match s with
  | d1 :: d2 :: rest =>
    if isDigitCh d1 && isDigitCh d2 then some (10 * digitVal d1 + digitVal d2, [d1, d2], rest)
    else if isDigitCh d1 then some (digitVal d1, [d1], d2 :: rest)
    else none
  | [d1] => if isDigitCh d1 then some (digitVal d1, [d1], []) else none
  | [] => none

/-- `extractDateComponents` (`src/extension.ts`): match the transaction date
pattern — four year digits, a separator (dash, slash or dot), a 1-2 digit
month, the same separator again, a 1-2 digit day — validate ranges, and
return the components and the raw matched text. -/
def extractDateComponents (text : Str) : Option (DateComponents × Str) :=
  match text with
  | y1 :: y2 :: y3 :: y4 :: s1 :: rest =>
    if isDigitCh y1 && isDigitCh y2 && isDigitCh y3 && isDigitCh y4 &&
        (s1 = '-' || s1 = '/' || s1 = '.') then
      match matchMonthSep s1 rest with
      | some (month, rawM, rest2) =>
        match matchDay rest2 with
        | some (day, rawD, _) =>
          let year := digitsToNat [y1, y2, y3, y4]
          if month < 1 || month > 12 || day < 1 || day > 31 then none
          else some (⟨year, month, day⟩, [y1, y2, y3, y4, s1] ++ rawM ++ rawD)
        | none => none
      | none => none
    else none
  | _ => none

/-- `formatDate`: zero-pad to 4/2/2 digits, join with the style's separator. -/
def formatDate (c : DateComponents) (fmt : DateFormatStyle) : Str :=
  let y := padZeros 4 (natDigits c.year)
  let m := padZeros 2 (natDigits c.month)
  let d := padZeros 2 (natDigits c.day)
  match fmt with
  | .ymdSlash => y ++ '/' :: m ++ '/' :: d
  | .ymdDot => y ++ '.' :: m ++ '.' :: d
  | .ymdDash => y ++ '-' :: m ++ '-' :: d

/-- `toIsoDate`: the `YYYY-MM-DD` sort key. -/
def toIsoDate (c : DateComponents) : Str :=
  padZeros 4 (natDigits c.year) ++ '-' :: padZeros 2 (natDigits c.month) ++
    '-' :: padZeros 2 (natDigits c.day)

/-! ## Line classification -/

/-- `isCommentLine`: the trimmed line starts with `;`, `#` or `*`. -/
def isCommentLine (line : Str) : Bool :=
  match trimBoth line with
  | c :: _ => c = ';' || c = '#' || c = '*'
  | [] => false

/-- `isTransactionHeaderLine`: the trimmed line starts with a valid date. -/
def isTransactionHeaderLine (line : Str) : Bool :=
  (extractDateComponents (trimBoth line)).isSome

/-- `isCommentBlockStart`: the trimmed line is exactly `comment`. -/
def isCommentBlockStart (line : Str) : Bool :=
  trimBoth line = "comment".toList

/-- `isCommentBlockEnd`: the trimmed line is exactly `end comment`. -/
def isCommentBlockEnd (line : Str) : Bool :=
  trimBoth line = "end comment".toList

/-- `/\s{2,}|\t/.test(s)`: a tab anywhere, or two consecutive whitespace chars. -/
def hasWsRunOrTab : Str → Bool
  | a :: b :: rest => a = '\t' || (jsWs a && jsWs b) || hasWsRunOrTab (b :: rest)
  | [a] => a = '\t'
  | [] => false

/-- A character of the metadata-key class `[A-Za-z0-9_.-]`. -/
def isKeyCh (c : Char) : Bool :=
  ('A' ≤ c && c ≤ 'Z') || ('a' ≤ c && c ≤ 'z') || isDigitCh c || c = '_' || c = '.' || c = '-'

/-- `isMetadataPostingLine` (takes the trimmed line): no two-space/tab gap, and
matching `^[A-Za-z0-9_.-]+:(\s+.*)?$`. -/
def isMetadataPostingLine (trimmedLine : Str) : Bool :=
  if trimmedLine.isEmpty then false
  else if hasWsRunOrTab trimmedLine then false
  else
    let key := trimmedLine.takeWhile isKeyCh
    if key.isEmpty then false
    else
      match trimmedLine.drop key.length with
      | ':' :: rest =>
        match rest with
        | [] => true
        | c :: _ => jsWs c
      | _ => false

/-- `/:\s/.test(s)`: a colon directly followed by whitespace. -/
def hasColonWs : Str → Bool
  | a :: b :: rest => (a = ':' && jsWs b) || hasColonWs (b :: rest)
  | _ => false

/-- `isMetadataPostingAccount`: the extracted account token is actually a
metadata key (falsy input — `null` or the empty string — is not). -/
def isMetadataPostingAccount (account : Option Str) : Bool :=
  match account with
  | none => false
  | some a =>
    if a.isEmpty then false
    else
      let t := trimBoth a
      t.getLast? = some ':' || hasColonWs t

/-- `ParsedComment`: result of `parseCommentLine`. -/
structure ParsedComment where
  char : Char
  leadingWhitespace : Str
  content : Str
deriving DecidableEq, Repr

/-- A JS line terminator as it can occur in journal text: `.` never matches
one, and `$` (no `m` flag) asserts end of input only. -/
def isLineTerm (c : Char) : Bool := c = '\n' || c = '\r'

/-- `parseCommentLine`: match `^(\s*)([#;*])\s?(.*)$`.  The `(.*)$` tail must
reach the end of input without crossing a line terminator; when the optional
`\s?` character is present but the tail after it is dirty, giving it back
cannot help, because the tail including it is then dirty too. -/
def parseCommentLine (line : Str) : Option ParsedComment :=
  let ws := line.takeWhile jsWs
  match line.dropWhile jsWs with
  | c :: rest =>
    if c = '#' || c = ';' || c = '*' then
      match rest with
      | w :: rest2 =>
        if jsWs w then
          if rest2.any isLineTerm then none else some ⟨c, ws, rest2⟩
        else
          if (w :: rest2).any isLineTerm then none else some ⟨c, ws, w :: rest2⟩
      | [] => some ⟨c, ws, []⟩
    else none
  | [] => none

/-! ## Posting detail extraction (`extractPostingDetail`) -/

/-- Does a whitespace run (given reversed, as accumulated) match the split
separator `\s{2,}|\t+`?  A run of two or more whitespace characters is matched
wholly by `\s{2,}`; a single tab by `\t+`. -/
def wsRunIsSep (run : Str) : Bool :=
  2 ≤ run.length || run = ['\t']

/-- Worker for `splitSep`: `pend` is the current (reversed) pending whitespace
run, `acc` the current (reversed) token. -/
def splitSepAux : Str → Str → Str → List Str
  | [], pend, acc =>
    if pend.isEmpty then [acc.reverse]
    else if wsRunIsSep pend then [acc.reverse, []]
    else [(pend ++ acc).reverse]
  | c :: rest, pend, acc =>
    if jsWs c then splitSepAux rest (c :: pend) acc
    else if pend.isEmpty then splitSepAux rest [] (c :: acc)
    else if wsRunIsSep pend then acc.reverse :: splitSepAux rest [] [c]
    else splitSepAux rest [] (c :: (pend ++ acc))

/-- `trimmed.split(/\s{2,}|\t+/)`. -/
def splitSep (s : Str) : List Str := splitSepAux s [] []

/-- `(?:,\d+)*` (greedy), with explicit fuel (call with the input's length):
returns the consumed text and the rest. -/
def commaGroupsAux : Nat → Str → Str × Str
  | 0, s => ([], s)
  | fuel + 1, s =>
    match s with
    | ',' :: rest =>
      let ds := rest.takeWhile isDigitCh
      if ds.isEmpty then ([], s)
      else
        let r := rest.dropWhile isDigitCh
        let (more, fin) := commaGroupsAux fuel r
        (',' :: (ds ++ more), fin)
    | _ => ([], s)

/-- The numeric token `\d+(?:,\d+)*(?:\.\d+)?` (greedy): returns the matched
token and the rest, or `none` when no leading digit. -/
def matchNumTok (s : Str) : Option (Str × Str) :=
  if (s.takeWhile isDigitCh).isEmpty then none
  else
    match (commaGroupsAux (s.dropWhile isDigitCh).length (s.dropWhile isDigitCh)).2,
        (commaGroupsAux (s.dropWhile isDigitCh).length (s.dropWhile isDigitCh)).1 with
    | '.' :: rest, cg =>
      if (rest.takeWhile isDigitCh).isEmpty then
        some (s.takeWhile isDigitCh ++ cg, '.' :: rest)
      else
        some (s.takeWhile isDigitCh ++ cg ++ '.' :: rest.takeWhile isDigitCh,
          rest.dropWhile isDigitCh)
    | r2, cg => some (s.takeWhile isDigitCh ++ cg, r2)

/-- The amount alternation of the posting fallback pattern, in source order:
a dollar sign with an optional sign before the digits, a minus then a dollar
sign, or a bare number. -/
def matchAmountAlt (s : Str) : Option (Str × Str) :=
  match s with
  | '$' :: '-' :: rest =>
    (match matchNumTok rest with
     | some (num, r) => some ('$' :: '-' :: num, r)
     | none => none)
  | '$' :: rest =>
    (match matchNumTok rest with
     | some (num, r) => some ('$' :: num, r)
     | none => none)
  | '-' :: '$' :: rest =>
    (match matchNumTok rest with
     | some (num, r) => some ('-' :: '$' :: num, r)
     | none => none)
  | _ =>
    match matchNumTok s with
    | some (num, r) => some (num, r)
    | none => none

/-- Account-end candidate: position `i` of `t` right after a non-whitespace
character, at the end of the string or followed by whitespace (the lazy word
extension `\S+(?:\s+\S+)*?` stopping at a word end). -/
def isWordEndPos (t : Str) (i : Nat) : Bool :=
  match i with
  | 0 => false
  | j + 1 =>
    match t.get? j with
    | none => false
    | some c =>
      !jsWs c &&
        (match t.get? (j + 1) with
         | none => true
         | some d => jsWs d)

/-- Account-end candidate inside a word: position `i` of `t` between two
non-whitespace characters (the regex engine backtracking into `\S+`). -/
def isMidWordPos (t : Str) (i : Nat) : Bool :=
  match i with
  | 0 => false
  | j + 1 =>
    match t.get? j, t.get? (j + 1) with
    | some c, some d => !jsWs c && !jsWs d
    | _, _ => false

/-- The candidate account-end positions of the posting fallback pattern, in
the order the JS backtracking regex engine tries them: word ends from left to
right, then intra-word splits from right to left. -/
def fallbackCandidates (t : Str) : List Nat :=
  ((List.range (t.length + 1)).filter (isWordEndPos t)) ++
    ((List.range (t.length + 1)).filter (isMidWordPos t)).reverse

/-- Try one candidate split: the account is `t.take i`; after optional
whitespace the amount alternation must match. -/
def fallbackTryAt (t : Str) (i : Nat) : Option (Str × Str × Str) :=
  let acct := t.take i
  let after := (t.drop i).dropWhile jsWs
  match matchAmountAlt after with
  | some (num, rest) => some (acct, num, rest)
  | none => none

/-- `PostingDetail`. -/
structure PostingDetail where
  trimmed : Str
  account : Option Str
  amount : Option Str
deriving DecidableEq, Repr

/-- `extractPostingDetail` (`src/extension.ts`): split on the first run of two
or more spaces or a tab; fall back to the trailing-numeric-token pattern;
otherwise the whole trimmed line is the account. -/
def extractPostingDetail (line : Str) : PostingDetail :=
  let t := trimBoth line
  if t.isEmpty then ⟨t, none, none⟩
  else
    match splitSep t with
    | p0 :: p1 :: ps =>
      ⟨t, some (trimBoth p0), some (trimBoth (List.intercalate [' '] (p1 :: ps)))⟩
    | _ =>
      match (fallbackCandidates t).findSome? (fallbackTryAt t) with
      | some (acct, num, rest) =>
        ⟨t, some (trimBoth acct), some (trimBoth (num ++ rest))⟩
      | none => ⟨t, some t, none⟩

/-! ## Amount style rewriting and digit columns -/

/-- The currency symbols recognized by the style-rewriting patterns. -/
def currencySymCh (c : Char) : Bool :=
  c = '$' || c = '€' || c = '£' || c = '¥'

/-- `formatAmountWithStyle` (`src/extension.ts`): targeted substitution that
moves the sign across a leading currency symbol; a falsy amount (null or the
empty string) yields null; a non-matching amount is kept verbatim. -/
def formatAmountWithStyle (amount : Option Str) (style : NegativeCommodityStyle) : Option Str :=
  match amount with
  | none => none
  | some a =>
    if a.isEmpty then none
    else
      match style with
      | .signBeforeSymbol =>
        match a with
        | sym :: '-' :: rest =>
          if currencySymCh sym then
            match matchNumTok rest with
            | some (num, r) => some ('-' :: sym :: (num ++ r))
            | none => some a
          else some a
        | _ => some a
      | .symbolBeforeSign =>
        match a with
        | '-' :: sym :: rest =>
          if currencySymCh sym then
            match matchNumTok rest with
            | some (num, r) => some (sym :: '-' :: (num ++ r))
            | none => some a
          else some a
        | _ => some a

/-- `getDigitsPrefixLength`: the index of the first decimal digit of the
trimmed amount (its length when it has no digit). -/
def getDigitsPrefixLength (amount : Str) : Nat :=
  (trimL amount).findIdx isDigitCh

/-! ## Header formatting (`formatTransactionHeader`) -/

/-- `headerLine.search(/\s*;.*$/)`: index of the leftmost match — the first
semicolon, extended left across the whitespace run immediately before it. -/
def findCommentIdx (line : Str) : Option Nat :=
  match line.findIdx? (· = ';') with
  | none => none
  | some i0 => some (i0 - ((line.take i0).reverse.takeWhile jsWs).length)

/-- `formatTransactionHeader` (`src/extension.ts`): strip a trailing
`;`-comment, parse date, optional status marker, optional parenthesized code,
description; reassemble with single spaces at column 0 and reappend the
comment verbatim.  Lines that do not parse as a date are returned unchanged. -/
def formatTransactionHeader (headerLine : Str) (options : FormatterOptions) : Str :=
  let commentPart :=
    match findCommentIdx headerLine with
    | some i => headerLine.drop i
    | none => []
  let headerWithoutComment :=
    match findCommentIdx headerLine with
    | some i => headerLine.take i
    | none => headerLine
  let trimmedHeader := trimBoth headerWithoutComment
  if trimmedHeader.isEmpty then headerLine
  else
    match extractDateComponents trimmedHeader with
    | none => headerLine
    | some (components, raw) =>
      let rem0 := trimL (trimmedHeader.drop raw.length)
      let status := match rem0 with
        | c :: _ => if c = '*' || c = '!' then [c] else []
        | [] => []
      let rem1 := if status.isEmpty then rem0 else trimL rem0.tail
      let code := match rem1 with
        | '(' :: rest =>
          (match rest.findIdx? (· = ')') with
           | some j => '(' :: rest.take (j + 1)
           | none => [])
        | _ => []
      let rem2 := if code.isEmpty then rem1 else trimL (rem1.drop code.length)
      let description := rem2
      let formattedDate := formatDate components options.dateFormat
      let segments := [formattedDate] ++
        (if status.isEmpty then [] else [status]) ++
        (if code.isEmpty then [] else [code]) ++
        (if description.isEmpty then [] else [description])
      List.intercalate [' '] segments ++ commentPart

/-! ## Transaction formatting (`formatTransaction`) -/

/-- One prepared posting of `formatTransaction`: the extracted detail, the
style-rewritten amount, and its digits-prefix length. -/
structure PreparedPosting where
  detail : PostingDetail
  formattedAmount : Option Str
  digitsPrefixLength : Nat
deriving DecidableEq, Repr

/-- Prepare one posting line: extract the detail, rewrite the amount to the
configured negative-commodity style, record the digits-prefix length. -/
def preparePosting (options : FormatterOptions) (line : Str) : PreparedPosting :=
  match (extractPostingDetail line).account with
  | none => ⟨extractPostingDetail line, none, 0⟩
  | some _ =>
    match formatAmountWithStyle
        (match (extractPostingDetail line).amount with
         | some a => if a.length > 0 then some a else none
         | none => none)
        options.negativeCommodityStyle with
    | none => ⟨extractPostingDetail line, none, 0⟩
    | some a =>
      ⟨extractPostingDetail line, some (trimBoth a), getDigitsPrefixLength (trimBoth a)⟩

/-- The fold computing `referenceAccountLength`: the longest account length
among the prepared postings. -/
def referenceAccountLength (prepared : List PreparedPosting) : Nat :=
  prepared.foldl
    (fun m p => match p.detail.account with
      | some a => max m a.length
      | none => m)
    0

/-- The per-posting digit-column candidates of `widest` alignment:
`indentWidth + accountLength + digitsPrefixLength + 2` for each posting with
an account and a formatted amount. -/
def digitColumnCandidates (indentWidth : Nat) (prepared : List PreparedPosting) : List Nat :=
  (prepared.filter (fun p => p.detail.account.isSome && p.formattedAmount.isSome)).map
    (fun p =>
      indentWidth + (match p.detail.account with | some a => a.length | none => 0) +
        p.digitsPrefixLength + 2)

/-- The target digits column of one transaction. -/
def baseDigitsColumn (options : FormatterOptions) (prepared : List PreparedPosting) : Nat :=
  match options.amountAlignment with
  | .widest =>
    let indentWidth := options.indentationWidth
    let fallbackColumn := indentWidth + referenceAccountLength prepared + 2
    let cands := digitColumnCandidates indentWidth prepared
    if cands.isEmpty then fallbackColumn
    else cands.foldl max fallbackColumn
  | .fixedColumn => options.amountColumnPosition

/-- The `widest` target column as the specification words it:
`max(indentWidth + longestAccountLength + 2, max over amount-bearing postings
of indentWidth + thatAccountLength + itsDigitsPrefixLength + 2)`. -/
def claimWidestColumn (options : FormatterOptions) (prepared : List PreparedPosting) : Nat :=
  max (options.indentationWidth + referenceAccountLength prepared + 2)
    ((digitColumnCandidates options.indentationWidth prepared).foldl max 0)

/-- Re-emit one prepared posting at the target digits column:
`indent + account + spaces + amount`, with at least two spaces of padding;
postings without account or amount are re-emitted with indentation only. -/
def emitPosting (options : FormatterOptions) (base : Nat) (p : PreparedPosting) : Str :=
  let indentStr := spaces options.indentationWidth
  match p.detail.account, p.formattedAmount with
  | some acct, some amt =>
    let paddingTarget : ℤ :=
      (base : ℤ) - ((options.indentationWidth : ℤ) + (acct.length : ℤ)) - (p.digitsPrefixLength : ℤ)
    let paddingNeeded := (max 2 paddingTarget).toNat
    indentStr ++ acct ++ spaces paddingNeeded ++ amt
  | _, _ => indentStr ++ p.detail.trimmed

/-- `formatTransaction` (`src/extension.ts`): format the header, hoist comment
lines, align the posting lines on a per-transaction digits column. -/
def formatTransaction (lines : List Str) (options : FormatterOptions) : List Str :=
  match lines with
  | [] => lines
  | [_] => lines
  | headerLine :: rest =>
    let formattedHeader := formatTransactionHeader headerLine options
    let commentLines := rest.filter (fun l => isCommentLine l)
    let postingLines := rest.filter (fun l => !isCommentLine l)
    if postingLines.isEmpty then formattedHeader :: commentLines
    else
      let prepared := postingLines.map (preparePosting options)
      let base := baseDigitsColumn options prepared
      formattedHeader :: commentLines ++ prepared.map (emitPosting options base)

/-! ## Full-document formatting (`formatHledgerJournal`) -/

/-- The loop state of `formatHledgerJournal`. -/
structure FmtState where
  inTransaction : Bool
  transactionLines : List Str
  lastWasTransaction : Bool
  hasContent : Bool
  inCommentBlock : Bool
deriving DecidableEq, Repr

/-- Initial loop state. -/
def initFmtState : FmtState := ⟨false, [], false, false, false⟩

/-- The body of the `formatHledgerJournal` loop, one branch per source branch;
emits the lines this iteration pushes and the successor state. -/
def fmtStep (options : FormatterOptions) (st : FmtState) (line : Str) : List Str × FmtState :=
  let trimmed := trimBoth line
  if isCommentBlockStart line then
    ((if st.inTransaction then formatTransaction st.transactionLines options else []) ++ [line],
      { inTransaction := false
        transactionLines := if st.inTransaction then [] else st.transactionLines
        lastWasTransaction := false
        hasContent := true
        inCommentBlock := true })
  else if st.inCommentBlock then
    ([line], { st with inCommentBlock := !isCommentBlockEnd line })
  else if trimmed.isEmpty then
    if st.inTransaction then
      (formatTransaction st.transactionLines options ++ [[]],
        { st with inTransaction := false, transactionLines := [],
                  lastWasTransaction := true, hasContent := true })
    else if !st.lastWasTransaction && st.hasContent then ([line], st)
    else ([], st)
  else if isCommentLine trimmed then
    if st.inTransaction then
      ([], { st with transactionLines := st.transactionLines ++ [line] })
    else ([line], { st with lastWasTransaction := false, hasContent := true })
  else if isTransactionHeaderLine trimmed then
    ((if st.inTransaction then formatTransaction st.transactionLines options ++ [[]] else []),
      { inTransaction := true
        transactionLines := (if st.inTransaction then [] else st.transactionLines) ++ [line]
        lastWasTransaction := false
        hasContent := true
        inCommentBlock := st.inCommentBlock })
  else if st.inTransaction then
    ([], { st with transactionLines := st.transactionLines ++ [line] })
  else ([line], { st with lastWasTransaction := false, hasContent := true })

/-- Run the `formatHledgerJournal` loop over the lines, then flush an open
transaction at end of input. -/
def fmtLines (options : FormatterOptions) : List Str → FmtState → List Str
  | [], st =>
    if st.inTransaction && !st.transactionLines.isEmpty then
      formatTransaction st.transactionLines options ++ [[]]
    else []
  | line :: rest, st =>
    let (out, st') := fmtStep options st line
    out ++ fmtLines options rest st'

/-- The trailing-blank collapsing loop, on the reversed line list: pop while
the last two lines are both empty (leaving one). -/
def popTrailRev (r : List Str) : List Str :=
  let k := (r.takeWhile (fun l => l.isEmpty)).length
  let rest := r.dropWhile (fun l => l.isEmpty)
  if k = 0 then r
  else
    match rest with
    | [] => [[]]
    | _ => [] :: rest

/-- `formatHledgerJournal` (`src/extension.ts`): run the classification loop,
then strip leading empty lines and collapse trailing empty lines. -/
def formatHledgerJournal (text : Str) (optionsOrColumn : NormInput) : Str :=
  let options := normalizeFormatterOptions optionsOrColumn
  let lines := splitLines text
  let formatted := fmtLines options lines initFmtState
  joinLines ((popTrailRev (formatted.dropWhile (fun l => l.isEmpty)).reverse).reverse)

/-! ## Transaction segmentation for sorting (`parseTransactionsWithLeading`) -/

/-- One segmented transaction: ISO date key and raw content. -/
structure TxnRec where
  date : Str
  content : Str
deriving DecidableEq, Repr

/-- The lookahead of the sort segmenter: is the next non-blank line a
transaction header? -/
def nextNonBlankIsHeader : List Str → Bool
  | [] => false
  | l :: rest =>
    if (trimBoth l).isEmpty then nextNonBlankIsHeader rest
    else isTransactionHeaderLine (trimBoth l)

/-- The `parseTransactionsWithLeading` loop.  Arguments: remaining lines,
current transaction lines, current date key, leading lines, `inTransaction`,
`hasSeenTransaction`, accumulated transactions.  Returns the transactions and
the (untrimmed) leading lines. -/
def parseTxAux : List Str → List Str → Str → List Str → Bool → Bool → List TxnRec →
    List TxnRec × List Str
  | [], curTx, curDate, leading, inTx, _, txs =>
    (if inTx && !curTx.isEmpty then txs ++ [⟨curDate, joinLines curTx⟩] else txs, leading)
  | line :: rest, curTx, curDate, leading, inTx, seen, txs =>
    let trimmed := trimBoth line
    match extractDateComponents trimmed with
    | some (comps, _) =>
      let txs' := if inTx && !curTx.isEmpty then txs ++ [⟨curDate, joinLines curTx⟩] else txs
      parseTxAux rest [line] (toIsoDate comps) leading true true txs'
    | none =>
      if inTx then
        if trimmed.isEmpty then
          if nextNonBlankIsHeader rest then
            parseTxAux rest [] curDate leading false seen (txs ++ [⟨curDate, joinLines curTx⟩])
          else
            parseTxAux rest (curTx ++ [line]) curDate leading inTx seen txs
        else
          parseTxAux rest (curTx ++ [line]) curDate leading inTx seen txs
      else if !seen then
        parseTxAux rest curTx curDate (leading ++ [line]) inTx seen txs
      else
        parseTxAux rest curTx curDate leading inTx seen txs

/-- Result of `parseTransactionsWithLeading`. -/
structure ParsedJournal where
  leadingContent : Str
  transactions : List TxnRec
deriving DecidableEq, Repr

/-- `parseTransactionsWithLeading` (`src/extension.ts`): the sort-variant
segmenter (a blank line ends a transaction only when the next non-blank line
is itself a header). -/
def parseTransactionsWithLeading (text : Str) : ParsedJournal :=
  let (txs, leading) := parseTxAux (splitLines text) [] [] [] false false []
  ⟨joinLines ((leading.reverse.dropWhile (fun l => (trimBoth l).isEmpty)).reverse), txs⟩

/-! ## Chronological sort (`sortHledgerJournal`) -/

/-- JS string `<` (lexicographic by code unit). -/
def strLtB : Str → Str → Bool
  | [], [] => false
  | [], _ :: _ => true
  | _ :: _, [] => false
  | a :: as, b :: bs => if a < b then true else if b < a then false else strLtB as bs

/-- Stable insertion of a transaction into an already-sorted list: it goes
after every element whose date is strictly smaller is false... it goes after
every element `y` with `y.date < x.date` false?  Precisely: after every `y`
with `strLtB y.date x.date`, before the first other one — the unique stable
position for an element originally to the left. -/
def insertTxn (x : TxnRec) : List TxnRec → List TxnRec
  | [] => [x]
  | y :: ys => if strLtB y.date x.date then y :: insertTxn x ys else x :: y :: ys

/-- Stable sort by date key, the model of `Array.prototype.sort` (stable per
the ECMAScript spec) with the comparator of `sortHledgerJournal`. -/
def sortTxns : List TxnRec → List TxnRec
  | [] => []
  | x :: xs => insertTxn x (sortTxns xs)

/-- Does the content string end with two newlines? -/
def endsWithNN (s : Str) : Bool :=
  match s.reverse with
  | '\n' :: '\n' :: _ => true
  | _ => false

/-- Re-emission of the sorted transactions: one empty separator line between
consecutive transactions, except after a content already ending in a blank
line. -/
def emitTxns : List TxnRec → List Str
  | [] => []
  | [t] => [t.content]
  | t :: u :: rest =>
    if endsWithNN t.content then t.content :: emitTxns (u :: rest)
    else t.content :: [] :: emitTxns (u :: rest)

/-- The re-emission of the leading content: the leading content (when
non-empty) followed by one empty separator line (when transactions follow). -/
def sortLeadSegment (parsed : ParsedJournal) (sorted : List TxnRec) : List Str :=
  if parsed.leadingContent.isEmpty then []
  else if sorted.isEmpty then [parsed.leadingContent]
  else [parsed.leadingContent, []]

/-- The rebuilt journal text of `sortHledgerJournal` before the final
trailing-newline fixup. -/
def sortedEmission (text : Str) : Str :=
  joinLines (sortLeadSegment (parseTransactionsWithLeading text)
      (sortTxns (parseTransactionsWithLeading text).transactions) ++
    emitTxns (sortTxns (parseTransactionsWithLeading text).transactions))

/-- `sortHledgerJournal` (`src/extension.ts`). -/
def sortHledgerJournal (text : Str) : Str :=
  if text.getLast? = some '\n' && (sortedEmission text).getLast? ≠ some '\n' then
    sortedEmission text ++ ['\n']
  else sortedEmission text

/-! ## Comment toggling (`toggleCommentLines`) -/

/-- The first pass of `toggleCommentLines`, scanning from index `i`: does the
selected range contain a non-blank line that is not a comment? -/
def anyUncommentedFrom (startLine endLine : Nat) : Nat → List Str → Bool
  | _, [] => false
  | i, l :: rest =>
    (startLine ≤ i && i ≤ endLine && !(trimBoth l).isEmpty && (parseCommentLine l).isNone) ||
      anyUncommentedFrom startLine endLine (i + 1) rest

/-- The first pass of `toggleCommentLines`: does the selected range contain a
non-blank line that is not a comment? -/
def hasUncommentedLines (lines : List Str) (startLine endLine : Nat) : Bool :=
  anyUncommentedFrom startLine endLine 0 lines

/-- The second pass of `toggleCommentLines`, acting on one line. -/
def toggleLine (options : FormatterOptions) (hasUnc : Bool) (inRange : Bool) (l : Str) : Str :=
  if !inRange then l
  else if (trimBoth l).isEmpty then l
  else if hasUnc then
    match parseCommentLine l with
    | some _ => l
    | none =>
      let ws := l.takeWhile jsWs
      ws ++ options.commentCharacter :: ' ' :: l.drop ws.length
  else
    match parseCommentLine l with
    | some pc => pc.leadingWhitespace ++ pc.content
    | none => l

/-- Apply an index-aware rewriting to each line (the second-pass loop). -/
def idxMap (f : Nat → Str → Str) : Nat → List Str → List Str
  | _, [] => []
  | i, l :: rest => f i l :: idxMap f (i + 1) rest

/-- `toggleCommentLines` (`src/extension.ts`). -/
def toggleCommentLines (text : Str) (startLine endLine : Nat) (optionsOrColumn : NormInput) : Str :=
  let options := normalizeFormatterOptions optionsOrColumn
  let lines := splitLines text
  let hasUnc := hasUncommentedLines lines startLine endLine
  joinLines (idxMap (fun i l => toggleLine options hasUnc (startLine ≤ i && i ≤ endLine) l) 0 lines)

/-! ## Amount parsing (`parseAmount`) and formatting (`formatAmountValue`) -/

/-- A character of the bare-currency class: anything except digits, signs,
dot, at, star, semicolon, tab, space, quote, braces and equals. -/
def isCurrencyCh (c : Char) : Bool :=
  !(isDigitCh c || c = '-' || c = '+' || c = '.' || c = '@' || c = '*' || c = ';' ||
    c = '\t' || c = ' ' || c = '"' || c = '\x7b' || c = '\x7d' || c = '=')

/-- A quoted currency phrase: a quote, one or more non-quote characters, a
quote; returns the matched text (quotes included) and the rest. -/
def matchQuoted (s : Str) : Option (Str × Str) :=
  match s with
  | '"' :: rest =>
    if (rest.takeWhile (· ≠ '"')).isEmpty then none
    else
      match rest.drop (rest.takeWhile (· ≠ '"')).length with
      | '"' :: r => some ('"' :: (rest.takeWhile (· ≠ '"') ++ ['"']), r)
      | _ => none
  | _ => none

/-- The groups of the currency-first amount grammar: optional leading sign,
currency token, optional sign immediately before the digits, numeric token. -/
structure CurrencyFirstMatch where
  sign1 : Bool
  currency : Str
  sign2 : Bool
  num : Str
deriving DecidableEq, Repr

/-- After the currency token: optional whitespace, an optional sign directly
before the digits, and the numeric token. -/
def cfAfterCurrency (sign1 : Bool) (currency : Str) (r1 : Str) : Option CurrencyFirstMatch :=
  match r1.dropWhile jsWs with
  | '-' :: r3 =>
    (match matchNumTok r3 with
     | some (num, _) => some ⟨sign1, currency, true, num⟩
     | none => none)
  | r2 =>
    match matchNumTok r2 with
    | some (num, _) => some ⟨sign1, currency, false, num⟩
    | none => none

/-- The currency token (quoted phrase or bare run) followed by the rest of the
currency-first grammar. -/
def cfCurrency (sign1 : Bool) (r0 : Str) : Option CurrencyFirstMatch :=
  match matchQuoted r0 with
  | some (c, r) => cfAfterCurrency sign1 c r
  | none =>
    if (r0.takeWhile isCurrencyCh).isEmpty then none
    else cfAfterCurrency sign1 (r0.takeWhile isCurrencyCh) (r0.dropWhile isCurrencyCh)

/-- The currency-first grammar of `parseAmount` (takes the trimmed input). -/
def currencyFirstMatch (t : Str) : Option CurrencyFirstMatch :=
  match t with
  | '-' :: t0 => cfCurrency true t0
  | _ => cfCurrency false t

/-- The groups of the number-first amount grammar: optional leading sign,
numeric token, optional trailing currency (anchored at the end). -/
structure NumberFirstMatch where
  sign1 : Bool
  num : Str
  currency : Option Str
deriving DecidableEq, Repr

/-- After the numeric token: optional whitespace, then an optional currency
token anchored at the end of the input. -/
def nfAfterNum (sign1 : Bool) (num : Str) (r1 : Str) : Option NumberFirstMatch :=
  match r1.dropWhile jsWs with
  | [] => some ⟨sign1, num, none⟩
  | r2 =>
    match matchQuoted r2 with
    | some (c, r3) =>
      if r3.isEmpty then some ⟨sign1, num, some c⟩ else none
    | none =>
      if !(r2.takeWhile isCurrencyCh).isEmpty && (r2.dropWhile isCurrencyCh).isEmpty then
        some ⟨sign1, num, some (r2.takeWhile isCurrencyCh)⟩
      else none

/-- The numeric token followed by the rest of the number-first grammar. -/
def nfNum (sign1 : Bool) (r0 : Str) : Option NumberFirstMatch :=
  match matchNumTok r0 with
  | none => none
  | some (num, r1) => nfAfterNum sign1 num r1

/-- The number-first grammar of `parseAmount` (takes the trimmed input). -/
def numberFirstMatch (t : Str) : Option NumberFirstMatch :=
  match t with
  | '-' :: t0 => nfNum true t0
  | _ => nfNum false t

/-- `ParsedAmount`. -/
structure ParsedAmount where
  value : ℚ
  currency : Str
deriving DecidableEq, Repr

/-- `parseAmount` (`src/extension.ts`): try the currency-first grammar, then
the number-first grammar (defaulting the currency to a dollar sign), negate
when either sign is present; `null` when neither grammar matches. -/
def parseAmount (amountStr : Str) : Option ParsedAmount :=
  let trimmed := trimBoth amountStr
  match currencyFirstMatch trimmed with
  | some m =>
    (match parseNumber m.num with
     | none => none
     | some v => some ⟨if m.sign1 || m.sign2 then -v else v, m.currency⟩)
  | none =>
    match numberFirstMatch trimmed with
    | some m =>
      (match parseNumber m.num with
       | none => none
       | some v =>
         some ⟨if m.sign1 then -v else v,
           match m.currency with
           | some c => c
           | none => ['$']⟩)
    | none => none

/-- Thousands grouping of a (reversed) digit string: a comma after every
three digits when more follow. -/
def addCommasRev : Str → Str
  | a :: b :: c :: d :: rest => a :: b :: c :: ',' :: addCommasRev (d :: rest)
  | s => s

/-- Thousands grouping of a digit string, the model of the
`replace(comma-insertion-pattern)` call of `formatAmountValue`. -/
def addCommas (ds : Str) : Str := (addCommasRev ds.reverse).reverse

/-- `formatAmountValue` (`src/extension.ts`): absolute value rendered with
`toFixed(2)` (round half away from zero at the second decimal) and thousands
commas, then sign and currency placed by style. -/
def formatAmountValue (value : ℚ) (currency : Str) (style : NegativeCommodityStyle) : Str :=
  let absValue := |value|
  let n := (Int.floor (absValue * 100 + 1 / 2)).toNat
  let formattedNumber := addCommas (natDigits (n / 100)) ++ '.' :: padZeros 2 (natDigits (n % 100))
  match style with
  | .signBeforeSymbol =>
    if value < 0 then '-' :: (currency ++ formattedNumber) else currency ++ formattedNumber
  | .symbolBeforeSign =>
    if value < 0 then currency ++ '-' :: formattedNumber else currency ++ formattedNumber

/-! ## Balancing-amount inference (`calculateBalancingAmount`) -/

/-- The transaction argument of `calculateBalancingAmount`. -/
structure TxnInput where
  headerLine : Nat
  lines : List Str

/-- The optional context argument of `calculateBalancingAmount`. -/
structure BalContext where
  currentLineText : Option Str := none
  cursorColumn : Option Nat := none

/-- One classified posting of `calculateBalancingAmount`. -/
structure BalPosting where
  line : Str
  hasAmount : Bool
  amount : Option ℚ
  currency : Option Str
  account : Option Str
deriving DecidableEq, Repr

/-- The posting-classification loop of `calculateBalancingAmount`: skip blank,
comment and metadata lines, parse each amount. -/
def cbaPostings : List Str → List BalPosting
  | [] => []
  | line :: rest =>
    let trimmed := trimBoth line
    if trimmed.isEmpty || isCommentLine trimmed then cbaPostings rest
    else if isMetadataPostingLine trimmed then cbaPostings rest
    else
      let detail := extractPostingDetail line
      match detail.account with
      | none => cbaPostings rest
      | some acct =>
        if isMetadataPostingAccount (some acct) then cbaPostings rest
        else
          match detail.amount with
          | some amtStr =>
            (match parseAmount amtStr with
             | some pa => ⟨line, true, some pa.value, some pa.currency, some acct⟩ :: cbaPostings rest
             | none => ⟨line, false, none, none, some acct⟩ :: cbaPostings rest)
          | none => ⟨line, false, none, none, some acct⟩ :: cbaPostings rest

/-- `Map.prototype.set` on an association list (update in place or append). -/
def mapUpsert (m : List (Str × ℚ)) (k : Str) (v : ℚ) : List (Str × ℚ) :=
  match m with
  | [] => [(k, v)]
  | (k', v') :: rest => if k' = k then (k', v) :: rest else (k', v') :: mapUpsert rest k v

/-- `map.get(k) || 0`. -/
def mapGetD (m : List (Str × ℚ)) (k : Str) : ℚ :=
  match m with
  | [] => 0
  | (k', v') :: rest => if k' = k then v' else mapGetD rest k

/-- The per-currency sums of the postings carrying an amount. -/
def amountsByCurrency (ps : List BalPosting) : List (Str × ℚ) :=
  ps.foldl
    (fun m p =>
      match p.hasAmount, p.amount, p.currency with
      | true, some a, some c => mapUpsert m c (mapGetD m c + a)
      | _, _, _ => m)
    []

/-- `value.length - value.trimStart().length`. -/
def getLeadingWhitespaceLength (value : Str) : Nat :=
  value.length - (trimL value).length

/-- `line.indexOf(pat, start)`. -/
def indexOfFrom (line : Str) (pat : Str) (start : Nat) : Option Nat :=
  (((List.range (line.length + 1)).filter
      (fun i => start ≤ i && (line.drop i).take pat.length = pat))).head?

/-- `findAccountEndColumn` (`src/extension.ts`). -/
def findAccountEndColumn (line : Str) (account : Str) (indentLength : Nat) : Nat :=
  match indexOfFrom line account indentLength with
  | some i => i + account.length
  | none => indentLength + account.length

/-- Scan for the first digit at or after an index, stopping at a semicolon. -/
def findDigitsColumnAux : List Char → Nat → Option Nat
  | [], _ => none
  | c :: rest, i =>
    if c = ';' then none
    else if isDigitCh c then some i
    else findDigitsColumnAux rest (i + 1)

/-- `findDigitsColumnInLine` (`src/extension.ts`). -/
def findDigitsColumnInLine (line : Str) (startIndex : Nat) : Option Nat :=
  findDigitsColumnAux (line.drop startIndex) startIndex

/-- The digit-column candidates of the `widest` branch of
`calculateBalancingAmount`: the existing digit column of each amount-bearing
posting line, or its recomputed column when the line shows no digit. -/
def cbaDigitColumnCandidates (options : FormatterOptions) (postings : List BalPosting) :
    List Nat :=
  (postings.filter (fun p => p.hasAmount && p.account.isSome)).filterMap
    (fun p =>
      let detail := extractPostingDetail p.line
      match detail.amount with
      | none => none
      | some amt =>
        let postingIndentLength := getLeadingWhitespaceLength p.line
        let acct := match p.account with
          | some a => a
          | none => []
        let accountEnd := findAccountEndColumn p.line acct postingIndentLength
        match findDigitsColumnInLine p.line accountEnd with
        | some existingCol => some existingCol
        | none =>
          let f := formatAmountWithStyle (some amt) options.negativeCommodityStyle
          let pdp := match f with
            | some ff => getDigitsPrefixLength (trimBoth ff)
            | none => 0
          some (postingIndentLength + acct.length + pdp + 2))

/-- `calculateBalancingAmount` (`src/extension.ts`). -/
def calculateBalancingAmount (transaction : TxnInput) (options : FormatterOptions)
    (currentLineAccountName : Str) (context : Option BalContext) : Option Str :=
  let postingLines := transaction.lines.drop 1
  let indentWidth := options.indentationWidth
  let currentLineText : Str := match context with
    | some c =>
      (match c.currentLineText with
       | some t => t
       | none => [])
    | none => []
  let postings := cbaPostings postingLines
  if (postings.filter (fun p => !p.hasAmount)).length ≠ 1 then none
  else
    match amountsByCurrency postings with
    | [(currency, sum)] =>
      let balancingValue := -sum
      if |balancingValue| < 1 / 100000000 then none
      else
        let formattedAmount := formatAmountValue balancingValue currency options.negativeCommodityStyle
        let digitsPrefixLength := getDigitsPrefixLength formattedAmount
        let currentIndentLength :=
          if currentLineText.isEmpty then indentWidth else getLeadingWhitespaceLength currentLineText
        let accountEndColumn :=
          if currentLineText.isEmpty then currentIndentLength + currentLineAccountName.length
          else findAccountEndColumn currentLineText currentLineAccountName currentIndentLength
        let cursorColumn := match context with
          | some c =>
            (match c.cursorColumn with
             | some cc => cc
             | none => accountEndColumn)
          | none => accountEndColumn
        let minimumDigitsColumn := accountEndColumn + 2 + digitsPrefixLength
        let cursorDigitsColumn := max minimumDigitsColumn (cursorColumn + digitsPrefixLength)
        let base :=
          match options.amountAlignment with
          | .widest =>
            let cands := cbaDigitColumnCandidates options postings
            let refAccLen :=
              (postings.map (fun p =>
                match p.account with
                | some a => a.length
                | none => 0)).foldl max currentLineAccountName.length
            let fallbackIndent := if currentLineText.isEmpty then indentWidth else currentIndentLength
            let fallbackColumn := fallbackIndent + refAccLen + digitsPrefixLength + 2
            cands.foldl max (max fallbackColumn cursorDigitsColumn)
          | .fixedColumn =>
            max options.amountColumnPosition cursorDigitsColumn
        let existingSpacing := (max 0 ((cursorColumn : ℤ) - (accountEndColumn : ℤ))).toNat
        let basePadding := (max 2 ((base : ℤ) - (accountEndColumn : ℤ) - (digitsPrefixLength : ℤ))).toNat
        let paddingNeeded := (max 0 ((basePadding : ℤ) - (existingSpacing : ℤ))).toNat
        some (spaces paddingNeeded ++ formattedAmount)
    | _ => none

/-! # Theorems -/

theorem splitLines_ne_nil (s : Str) : splitLines s ≠ [] := by
  cases s with
  | nil => simp [splitLines]
  | cons c rest =>
    unfold splitLines
    cases h : splitLines rest with
    | nil => simp
    | cons l ls => by_cases hc : c = '\n' <;> simp [hc]

theorem joinLines_splitLines (s : Str) : joinLines (splitLines s) = s := by
  induction s with
  | nil => rfl
  | cons c rest ih =>
    unfold splitLines
    cases h : splitLines rest with
    | nil => exact absurd h (splitLines_ne_nil rest)
    | cons l ls =>
      by_cases hc : c = '\n'
      · subst hc
        simp only [if_pos rfl, joinLines]
        rw [h] at ih
        exact congrArg ('\n' :: ·) ih
      · simp only [if_neg hc]
        rw [h] at ih
        cases ls with
        | nil => simpa [joinLines] using congrArg (c :: ·) ih
        | cons l2 ls2 => simpa [joinLines] using congrArg (c :: ·) ih

/-- C6 counterexample: a present but unrecognized `amountAlignment` value is
coerced to `fixedColumn`, not to the documented default `widest`. -/
theorem C6_counterexample :
    (normalizeFormatterOptions (.opts { amountAlignment := some .vother })).amountAlignment =
        .fixedColumn ∧
      DEFAULT_FORMATTER_OPTIONS.amountAlignment = .widest ∧
      AmountAlignment.fixedColumn ≠ AmountAlignment.widest := by
  refine ⟨rfl, rfl, by decide⟩

/-- C6 (amended): normalization always yields a fully-populated options value;
an absent field receives its documented default; a present field of the wrong
type (or with an unrecognized value) is coerced to a fixed per-field fallback:
42, 4, `YYYY-MM-DD` and `;` (their defaults) for the numeric, date-format and
comment-character fields, but `fixedColumn` for an invalid `amountAlignment`
and `signBeforeSymbol` for an invalid `negativeCommodityStyle` — the opposite
constructors of those two fields' documented defaults. -/
theorem C6_normalize_defaults (p : PartialOptions) :
    (p.amountColumnPosition = none →
      (normalizeFormatterOptions (.opts p)).amountColumnPosition = 42) ∧
    (∀ v, p.amountColumnPosition = some v → (∀ q, v ≠ .vnum q) →
      (normalizeFormatterOptions (.opts p)).amountColumnPosition = 42) ∧
    (p.indentationWidth = none →
      (normalizeFormatterOptions (.opts p)).indentationWidth = 4) ∧
    (∀ v, p.indentationWidth = some v → (∀ q, v ≠ .vnum q) →
      (normalizeFormatterOptions (.opts p)).indentationWidth = 4) ∧
    (p.amountAlignment = none →
      (normalizeFormatterOptions (.opts p)).amountAlignment = .widest) ∧
    (∀ v, p.amountAlignment = some v → v ≠ .vstr ("widest".toList) →
      (normalizeFormatterOptions (.opts p)).amountAlignment = .fixedColumn) ∧
    (p.negativeCommodityStyle = none →
      (normalizeFormatterOptions (.opts p)).negativeCommodityStyle = .symbolBeforeSign) ∧
    (∀ v, p.negativeCommodityStyle = some v → v ≠ .vstr ("symbolBeforeSign".toList) →
      (normalizeFormatterOptions (.opts p)).negativeCommodityStyle = .signBeforeSymbol) ∧
    (p.dateFormat = none →
      (normalizeFormatterOptions (.opts p)).dateFormat = .ymdDash) ∧
    (∀ v, p.dateFormat = some v → v ≠ .vstr ("YYYY/MM/DD".toList) →
      v ≠ .vstr ("YYYY.MM.DD".toList) →
      (normalizeFormatterOptions (.opts p)).dateFormat = .ymdDash) ∧
    (p.commentCharacter = none →
      (normalizeFormatterOptions (.opts p)).commentCharacter = ';') ∧
    (∀ v, p.commentCharacter = some v → v ≠ .vstr ['#'] → v ≠ .vstr ['*'] →
      (normalizeFormatterOptions (.opts p)).commentCharacter = ';') := by
  refine ⟨?_, ?_, ?_, ?_, ?_, ?_, ?_, ?_, ?_, ?_, ?_, ?_⟩
  · intro h; simp [normalizeFormatterOptions, mergeField, h, coerceNum]
  · intro v h hv
    cases v with
    | vnum q => exact absurd rfl (hv q)
    | vstr s => simp [normalizeFormatterOptions, mergeField, h, coerceNum]
    | vundef => simp [normalizeFormatterOptions, mergeField, h, coerceNum]
    | vother => simp [normalizeFormatterOptions, mergeField, h, coerceNum]
  · intro h; simp [normalizeFormatterOptions, mergeField, h, coerceNum]
  · intro v h hv
    cases v with
    | vnum q => exact absurd rfl (hv q)
    | vstr s => simp [normalizeFormatterOptions, mergeField, h, coerceNum]
    | vundef => simp [normalizeFormatterOptions, mergeField, h, coerceNum]
    | vother => simp [normalizeFormatterOptions, mergeField, h, coerceNum]
  · intro h; simp [normalizeFormatterOptions, mergeField, h]
  · intro v h hv
    simp only [normalizeFormatterOptions, mergeField, h]
    rw [if_neg]
    intro hvv; exact hv hvv
  · intro h; simp [normalizeFormatterOptions, mergeField, h]
  · intro v h hv
    simp only [normalizeFormatterOptions, mergeField, h]
    rw [if_neg]
    intro hvv; exact hv hvv
  · intro h; simp [normalizeFormatterOptions, mergeField, h]
  · intro v h hv1 hv2
    simp only [normalizeFormatterOptions, mergeField, h]
    rw [if_neg, if_neg]
    · intro hvv; exact hv2 hvv
    · intro hvv; exact hv1 hvv
  · intro h; simp [normalizeFormatterOptions, mergeField, h]
  · intro v h hv1 hv2
    simp only [normalizeFormatterOptions, mergeField, h]
    rw [if_neg, if_neg]
    · intro hvv; exact hv2 hvv
    · intro hvv; exact hv1 hvv

/-- Witness for C6: the theorem applied at a concrete partial-options value
whose `amountAlignment` field holds a wrongly-typed value. -/
theorem C6_normalize_defaults_witness :
    (normalizeFormatterOptions
        (.opts { amountAlignment := some .vother })).amountAlignment = .fixedColumn :=
  (C6_normalize_defaults { amountAlignment := some .vother }).2.2.2.2.2.1 .vother rfl (by decide)

unseal Rat.add Rat.mul Rat.inv Rat.sub in
/-- C3 counterexample: a transaction whose postings satisfy all three claimed
preconditions (exactly one posting lacks an amount, a single currency, the
existing amounts do not sum to zero) on which `calculateBalancingAmount`
nevertheless returns `null`, because the non-zero sum is below the `1e-8`
epsilon of the source. -/
theorem C3_counterexample :
    calculateBalancingAmount
        ⟨0, ["2023-01-01 x".toList, "    a  $0.000000001".toList, "    b".toList]⟩
        DEFAULT_FORMATTER_OPTIONS ("b".toList) none = none ∧
      ((cbaPostings (["2023-01-01 x".toList, "    a  $0.000000001".toList,
          "    b".toList].drop 1)).filter (fun p => !p.hasAmount)).length = 1 ∧
      amountsByCurrency (cbaPostings (["2023-01-01 x".toList, "    a  $0.000000001".toList,
          "    b".toList].drop 1)) = [(['$'], 1 / 1000000000)] ∧
      (1 / 1000000000 : ℚ) ≠ 0 := by
  refine ⟨by decide, by decide, by decide, by norm_num⟩

/-- C3 (amended): `calculateBalancingAmount` returns `null` if and only if the
number of non-comment, non-metadata posting lines lacking a parseable amount
differs from one, or the parsed amounts span zero or at least two distinct
currencies, or the existing amounts sum to a value smaller than `1e-8` in
absolute value (rather than exactly zero); otherwise it returns a non-null
suggestion string. -/
theorem C3_balancing_null_iff (txn : TxnInput) (opts : FormatterOptions) (acct : Str)
    (ctx : Option BalContext) :
    calculateBalancingAmount txn opts acct ctx = none ↔
      (((cbaPostings (txn.lines.drop 1)).filter (fun p => !p.hasAmount)).length ≠ 1 ∨
        (amountsByCurrency (cbaPostings (txn.lines.drop 1))).length ≠ 1 ∨
        ∃ c s, amountsByCurrency (cbaPostings (txn.lines.drop 1)) = [(c, s)] ∧
          |s| < 1 / 100000000) := by
  unfold calculateBalancingAmount
  by_cases h1 : ((cbaPostings (txn.lines.drop 1)).filter (fun p => !p.hasAmount)).length = 1
  · have h1' : ¬((cbaPostings (txn.lines.drop 1)).filter (fun p => !p.hasAmount)).length ≠ 1 := by
      rw [h1]; simp
    rw [if_neg h1']
    cases hm : amountsByCurrency (cbaPostings (txn.lines.drop 1)) with
    | nil => simp [hm]
    | cons x rest =>
      cases rest with
      | nil =>
        obtain ⟨c, s⟩ := x
        by_cases hs : |(-s : ℚ)| < 1 / 100000000
        · simp only [if_pos hs]
          refine iff_of_true (by simp) (Or.inr (Or.inr ⟨c, s, rfl, ?_⟩))
          rwa [abs_neg] at hs
        · simp only [if_neg hs]
          refine iff_of_false (by simp) ?_
          rintro (hA | hB | ⟨c', s', heq, hlt⟩)
          · exact hA h1
          · simp at hB
          · injection heq with hx _
            injection hx with hc hv
            subst hc
            subst hv
            exact hs (by rwa [abs_neg])
      | cons y rest2 =>
        refine iff_of_true (by simp) (Or.inr (Or.inl ?_))
        simp
  · rw [if_pos h1]
    exact iff_of_true rfl (Or.inl h1)

/-- C4 counterexample: toggling a range that mixes a commented and an
uncommented line is not an involution — the second toggle uncomments the line
that was already a comment in the original text. -/
theorem C4_counterexample :
    toggleCommentLines (toggleCommentLines ("a\n; b".toList) 0 1 .noArg) 0 1 .noArg ≠
      "a\n; b".toList := by
  decide

/-- C5 counterexample: sorting is not idempotent.  The input's last
transaction swallows the trailing blank lines into its stored content; after
sorting it sits first, and a second sort segments it differently and drops
the blanks. -/
theorem C5_counterexample :
    sortHledgerJournal (sortHledgerJournal ("2023-02-01 B\n\n2023-01-01 A\n\n\n".toList)) ≠
      sortHledgerJournal ("2023-02-01 B\n\n2023-01-01 A\n\n\n".toList) := by
  decide

theorem splitLines_no_newline (s : Str) : ∀ l ∈ splitLines s, '\n' ∉ l := by
  induction s with
  | nil =>
    intro l hl
    simp [splitLines] at hl
    subst hl
    simp
  | cons c rest ih =>
    intro l hl
    unfold splitLines at hl
    cases h : splitLines rest with
    | nil => exact absurd h (splitLines_ne_nil rest)
    | cons l0 ls =>
      rw [h] at hl
      by_cases hc : c = '\n'
      · subst hc
        simp at hl
        rcases hl with rfl | rfl | hl2
        · simp
        · exact ih l (h ▸ List.mem_cons_self _ _)
        · exact ih l (h ▸ List.mem_cons_of_mem _ hl2)
      · simp [hc] at hl
        rcases hl with rfl | hl2
        · intro hmem
          rcases List.mem_cons.1 hmem with h1 | h2
          · exact hc h1.symm
          · exact ih l0 (h ▸ List.mem_cons_self _ _) h2
        · exact ih l (h ▸ List.mem_cons_of_mem _ hl2)

theorem splitLines_of_no_newline (l : Str) (h : '\n' ∉ l) : splitLines l = [l] := by
  induction l with
  | nil => rfl
  | cons c rest ih =>
    have hc : c ≠ '\n' := fun hcc => h (hcc ▸ List.mem_cons_self _ _)
    have hr : '\n' ∉ rest := fun hm => h (List.mem_cons_of_mem _ hm)
    unfold splitLines
    rw [ih hr]
    simp [hc]

theorem splitLines_append_newline (l t : Str) (h : '\n' ∉ l) :
    splitLines (l ++ '\n' :: t) = l :: splitLines t := by
  induction l with
  | nil =>
    show splitLines ('\n' :: t) = [] :: splitLines t
    conv_lhs => unfold splitLines
    cases ht : splitLines t with
    | nil => exact absurd ht (splitLines_ne_nil t)
    | cons l0 ls => simp
  | cons c rest ih =>
    have hc : c ≠ '\n' := fun hcc => h (hcc ▸ List.mem_cons_self _ _)
    have hr : '\n' ∉ rest := fun hm => h (List.mem_cons_of_mem _ hm)
    show splitLines (c :: (rest ++ '\n' :: t)) = (c :: rest) :: splitLines t
    conv_lhs => unfold splitLines
    rw [ih hr]
    simp [hc]

theorem splitLines_joinLines (ls : List Str) (h : ∀ l ∈ ls, '\n' ∉ l) (hne : ls ≠ []) :
    splitLines (joinLines ls) = ls := by
  induction ls with
  | nil => exact absurd rfl hne
  | cons l rest ih =>
    cases rest with
    | nil =>
      show splitLines (joinLines [l]) = [l]
      exact splitLines_of_no_newline l (h l (List.mem_cons_self _ _))
    | cons l2 rest2 =>
      show splitLines (l ++ '\n' :: joinLines (l2 :: rest2)) = l :: l2 :: rest2
      rw [splitLines_append_newline l _ (h l (List.mem_cons_self _ _))]
      rw [ih (fun x hx => h x (List.mem_cons_of_mem _ hx)) (by simp)]

theorem idxMap_length (f : Nat → Str → Str) : ∀ (i : Nat) (ls : List Str),
    (idxMap f i ls).length = ls.length := by
  intro i ls
  induction ls generalizing i with
  | nil => rfl
  | cons l rest ih => simp [idxMap, ih]

theorem idxMap_get? (f : Nat → Str → Str) : ∀ (ls : List Str) (i j : Nat),
    (idxMap f i ls).get? j = (ls.get? j).map (f (i + j)) := by
  intro ls
  induction ls with
  | nil => intro i j; rfl
  | cons l rest ih =>
    intro i j
    cases j with
    | zero => rfl
    | succ j2 =>
      show (idxMap f (i + 1) rest).get? j2 = (rest.get? j2).map (f (i + (j2 + 1)))
      rw [ih (i + 1) j2, show i + 1 + j2 = i + (j2 + 1) from by omega]

theorem dropWhile_eq_drop_len (p : Char → Bool) : ∀ l : Str,
    l.dropWhile p = l.drop (l.takeWhile p).length := by
  intro l
  induction l with
  | nil => rfl
  | cons c rest ih =>
    by_cases hc : p c
    · simp [List.dropWhile_cons, List.takeWhile_cons, hc, ih]
    · simp [List.dropWhile_cons, List.takeWhile_cons, hc]

theorem takeWhile_append_cons (p : Char → Bool) (l1 : Str) (c : Char) (t : Str)
    (h1 : ∀ x ∈ l1, p x = true) (hc : p c = false) :
    (l1 ++ c :: t).takeWhile p = l1 := by
  induction l1 with
  | nil => simp [List.takeWhile_cons, hc]
  | cons a rest ih =>
    have ha : p a = true := h1 a (List.mem_cons_self _ _)
    simp only [List.cons_append, List.takeWhile_cons, ha, if_true]
    rw [ih (fun x hx => h1 x (List.mem_cons_of_mem _ hx))]

theorem dropWhile_append_cons (p : Char → Bool) (l1 : Str) (c : Char) (t : Str)
    (h1 : ∀ x ∈ l1, p x = true) (hc : p c = false) :
    (l1 ++ c :: t).dropWhile p = c :: t := by
  induction l1 with
  | nil => simp [List.dropWhile_cons, hc]
  | cons a rest ih =>
    have ha : p a = true := h1 a (List.mem_cons_self _ _)
    simp only [List.cons_append, List.dropWhile_cons, ha, if_true]
    exact ih (fun x hx => h1 x (List.mem_cons_of_mem _ hx))

theorem normalize_commentChar (x : NormInput) :
    (normalizeFormatterOptions x).commentCharacter = ';' ∨
      (normalizeFormatterOptions x).commentCharacter = '#' ∨
      (normalizeFormatterOptions x).commentCharacter = '*' := by
  cases x with
  | noArg => exact Or.inl rfl
  | col q => exact Or.inl rfl
  | opts p =>
    simp only [normalizeFormatterOptions]
    split_ifs
    · exact Or.inr (Or.inl rfl)
    · exact Or.inr (Or.inr rfl)
    · exact Or.inl rfl

theorem parseCommentLine_mk (ws : Str) (c : Char) (r : Str)
    (hws : ∀ x ∈ ws, jsWs x = true) (hc : c = ';' ∨ c = '#' ∨ c = '*')
    (hr : r.any isLineTerm = false) :
    parseCommentLine (ws ++ c :: ' ' :: r) = some ⟨c, ws, r⟩ := by
  have hcw : jsWs c = false := by rcases hc with rfl | rfl | rfl <;> rfl
  unfold parseCommentLine
  rw [takeWhile_append_cons jsWs ws c _ hws hcw, dropWhile_append_cons jsWs ws c _ hws hcw]
  have hcb : (c = '#' || c = ';' || c = '*') = true := by
    rcases hc with rfl | rfl | rfl <;> rfl
  simp only [hcb, if_true]
  simp [show jsWs ' ' = true from rfl, hr]

theorem parseCommentLine_some (l : Str) (pc : ParsedComment)
    (h : parseCommentLine l = some pc) :
    pc.leadingWhitespace = l.takeWhile jsWs ∧ pc.content <:+ l := by
  unfold parseCommentLine at h
  cases hd : l.dropWhile jsWs with
  | nil => rw [hd] at h; exact absurd h (by simp)
  | cons c rest =>
    rw [hd] at h
    by_cases hcls : (c = '#' || c = ';' || c = '*') = true
    · simp only [hcls, if_true] at h
      have hsuf : rest <:+ l := by
        have h1 : c :: rest <:+ l := hd ▸ List.dropWhile_suffix jsWs
        exact (List.suffix_cons c rest).trans h1
      cases rest with
      | nil =>
        injection h with h2
        subst h2
        exact ⟨rfl, by simp⟩
      | cons w rest2 =>
        by_cases hw : jsWs w = true
        · simp only [hw, if_true] at h
          by_cases ht : rest2.any isLineTerm = true
          · rw [if_pos ht] at h
            exact absurd h (by simp)
          · rw [if_neg ht] at h
            injection h with h2
            subst h2
            refine ⟨rfl, ?_⟩
            exact ((List.suffix_cons w rest2).trans hsuf)
        · simp only [hw, if_false] at h
          by_cases ht : (w :: rest2).any isLineTerm = true
          · rw [if_pos ht] at h
            exact absurd h (by simp)
          · rw [if_neg ht] at h
            injection h with h2
            subst h2
            exact ⟨rfl, hsuf⟩
    · simp only [hcls, if_false] at h
      exact absurd h (by simp)

theorem trimBoth_isEmpty_iff (l : Str) :
    (trimBoth l).isEmpty = true ↔ ∀ x ∈ l, jsWs x = true := by
  unfold trimBoth trimR trimL
  rw [List.isEmpty_iff, List.reverse_eq_nil_iff, List.dropWhile_eq_nil_iff]
  constructor
  · intro h x hx
    rw [← List.takeWhile_append_dropWhile jsWs l] at hx
    rcases List.mem_append.1 hx with h1 | h2
    · exact List.mem_takeWhile_imp h1
    · exact h x (List.mem_reverse.2 h2)
  · intro h x hx
    exact h x (List.IsSuffix.mem (List.mem_reverse.1 hx) (List.dropWhile_suffix jsWs))

theorem takeWhile_append_drop (p : Char → Bool) (l : Str) :
    l.takeWhile p ++ l.drop (l.takeWhile p).length = l := by
  rw [← dropWhile_eq_drop_len]
  exact List.takeWhile_append_dropWhile p l

theorem toggleCommentLines_eq (text : Str) (s e : Nat) (o : NormInput) :
    toggleCommentLines text s e o =
      joinLines (idxMap (fun i l => toggleLine (normalizeFormatterOptions o)
        (hasUncommentedLines (splitLines text) s e) (s ≤ i && i ≤ e) l) 0 (splitLines text)) :=
  rfl

theorem toggleLine_false (o : FormatterOptions) (hU : Bool) (l : Str) :
    toggleLine o hU false l = l := rfl

theorem toggleLine_blank (o : FormatterOptions) (hU inR : Bool) (l : Str)
    (h : (trimBoth l).isEmpty = true) : toggleLine o hU inR l = l := by
  cases inR
  · rfl
  · simp [toggleLine, h]

theorem toggleLine_comment (o : FormatterOptions) (l : Str)
    (hb : (trimBoth l).isEmpty = false) (hp : parseCommentLine l = none) :
    toggleLine o true true l = l.takeWhile jsWs ++ o.commentCharacter :: ' ' ::
      l.drop (l.takeWhile jsWs).length := by
  simp [toggleLine, hb, hp]

theorem toggleLine_keep_comment (o : FormatterOptions) (l : Str) (pc : ParsedComment)
    (hb : (trimBoth l).isEmpty = false) (hp : parseCommentLine l = some pc) :
    toggleLine o true true l = l := by
  simp [toggleLine, hb, hp]

theorem toggleLine_uncomment (o : FormatterOptions) (l : Str) (pc : ParsedComment)
    (hb : (trimBoth l).isEmpty = false) (hp : parseCommentLine l = some pc) :
    toggleLine o false true l = pc.leadingWhitespace ++ pc.content := by
  simp [toggleLine, hb, hp]

theorem toggleLine_uncomment_none (o : FormatterOptions) (l : Str)
    (hp : parseCommentLine l = none) : toggleLine o false true l = l := by
  by_cases hb : (trimBoth l).isEmpty <;> simp [toggleLine, hb, hp]

theorem toggleLine_no_newline (o : FormatterOptions) (hU inR : Bool) (l : Str)
    (hcc : o.commentCharacter = ';' ∨ o.commentCharacter = '#' ∨ o.commentCharacter = '*')
    (h : '\n' ∉ l) : '\n' ∉ toggleLine o hU inR l := by
  have hccn : o.commentCharacter ≠ '\n' := by rcases hcc with h1 | h1 | h1 <;> simp [h1]
  cases inR with
  | false => rw [toggleLine_false]; exact h
  | true =>
    by_cases hb : (trimBoth l).isEmpty = true
    · rw [toggleLine_blank o hU true l hb]; exact h
    · have hb' : (trimBoth l).isEmpty = false := by simpa using hb
      cases hU with
      | true =>
        cases hp : parseCommentLine l with
        | some pc => rw [toggleLine_keep_comment o l pc hb' hp]; exact h
        | none =>
          rw [toggleLine_comment o l hb' hp]
          intro hm
          rcases List.mem_append.1 hm with h1 | h1
          · exact h (List.Sublist.mem h1 (List.takeWhile_sublist jsWs))
          · rcases List.mem_cons.1 h1 with h2 | h2
            · exact hccn h2.symm
            · rcases List.mem_cons.1 h2 with h3 | h3
              · exact Char.noConfusion (show (' ' : Char) = '\n' from h3.symm) (by
                  intro hv; exact absurd (congrArg (·.toNat) h3.symm) (by decide))
              · exact h (List.Sublist.mem h3 (List.drop_sublist _ l))
      | false =>
        cases hp : parseCommentLine l with
        | none => rw [toggleLine_uncomment_none o l hp]; exact h
        | some pc =>
          rw [toggleLine_uncomment o l pc hb' hp]
          obtain ⟨hlw, hct⟩ := parseCommentLine_some l pc hp
          intro hm
          rcases List.mem_append.1 hm with h1 | h1
          · rw [hlw] at h1
            exact h (List.Sublist.mem h1 (List.takeWhile_sublist jsWs))
          · exact h (List.IsSuffix.mem h1 hct)

theorem anyUncommentedFrom_eq_false (s e : Nat) : ∀ (ls : List Str) (n : Nat),
    (∀ j l, ls.get? j = some l → s ≤ n + j → n + j ≤ e →
      (trimBoth l).isEmpty = false → (parseCommentLine l).isSome = true) →
    anyUncommentedFrom s e n ls = false := by
  intro ls
  induction ls with
  | nil => intro n _; rfl
  | cons l rest ih =>
    intro n h
    unfold anyUncommentedFrom
    rw [Bool.or_eq_false_iff]
    constructor
    · by_cases hs : s ≤ n
      · by_cases he : n ≤ e
        · by_cases hb : (trimBoth l).isEmpty = true
          · simp [hb]
          · have := h 0 l rfl (by omega) (by omega) (by simpa using hb)
            simp [Option.isNone, hs, he, hb]
            cases hp : parseCommentLine l with
            | none => rw [hp] at this; exact Bool.noConfusion this
            | some pc => simp
        · simp [he]
      · simp [hs]
    · refine ih (n + 1) ?_
      intro j l2 hget hs2 he2 hnb
      exact h (j + 1) l2 hget (by omega) (by omega) hnb

/-- C4 (amended): comment toggling round-trips on any line range in which
every non-blank line is uncommented and carries no line terminator after its
indentation (the input's comment-block structure is immaterial:
`toggleCommentLines` never inspects it).  When the range already contains a
comment line the round trip fails, as the counterexample shows; and a
carriage return in a line's content blocks the second pass from recognising
the freshly commented line, so it is commented again. -/
theorem C4_toggle_roundtrip (text : Str) (s e : Nat) (o : NormInput)
    (H : ∀ i, i < (splitLines text).length → s ≤ i → i ≤ e →
      (trimBoth ((splitLines text).getD i [])).isEmpty = false →
      parseCommentLine ((splitLines text).getD i []) = none ∧
      (trimL ((splitLines text).getD i [])).any isLineTerm = false) :
    toggleCommentLines (toggleCommentLines text s e o) s e o = text := by
  have H' : ∀ i l, (splitLines text).get? i = some l → s ≤ i → i ≤ e →
      (trimBoth l).isEmpty = false →
      parseCommentLine l = none ∧ (trimL l).any isLineTerm = false := by
    intro i l hget hs he hnb
    have hlen : i < (splitLines text).length := by
      by_contra hge
      rw [List.get?_eq_none.2 (Nat.le_of_not_lt hge)] at hget
      exact Option.noConfusion hget
    have hgd : (splitLines text).getD i [] = l := by
      rw [List.getD_eq_get?, hget]
      rfl
    have := H i hlen hs he (hgd ▸ hnb)
    rwa [hgd] at this
  have hcc := normalize_commentChar o
  by_cases hU : hasUncommentedLines (splitLines text) s e = true
  · -- comment mode, then uncomment mode
    have h2 : toggleCommentLines text s e o =
        joinLines (idxMap (fun i l => toggleLine (normalizeFormatterOptions o) true
          (s ≤ i && i ≤ e) l) 0 (splitLines text)) := by
      rw [toggleCommentLines_eq, hU]
    have hnl2 : ∀ l2 ∈ idxMap (fun i l => toggleLine (normalizeFormatterOptions o) true
        (s ≤ i && i ≤ e) l) 0 (splitLines text), '\n' ∉ l2 := by
      intro l2 hl2
      obtain ⟨n, hn⟩ := List.mem_iff_get?.1 hl2
      rw [idxMap_get?] at hn
      cases hg : (splitLines text).get? n with
      | none => rw [hg] at hn; exact Option.noConfusion hn
      | some l =>
        rw [hg] at hn
        injection hn with hn
        subst hn
        exact toggleLine_no_newline _ _ _ l hcc
          (splitLines_no_newline text l (List.mem_iff_get?.2 ⟨n, hg⟩))
    have hne2 : idxMap (fun i l => toggleLine (normalizeFormatterOptions o) true
        (s ≤ i && i ≤ e) l) 0 (splitLines text) ≠ [] := by
      intro hnil
      have := idxMap_length (fun i l => toggleLine (normalizeFormatterOptions o) true
        (s ≤ i && i ≤ e) l) 0 (splitLines text)
      rw [hnil] at this
      exact splitLines_ne_nil text (List.length_eq_zero.1 this.symm)
    have h3 := splitLines_joinLines _ hnl2 hne2
    have h4 : hasUncommentedLines (idxMap (fun i l => toggleLine
        (normalizeFormatterOptions o) true (s ≤ i && i ≤ e) l) 0 (splitLines text)) s e
        = false := by
      apply anyUncommentedFrom_eq_false
      intro j l2 hget hs2 he2 hnb
      rw [idxMap_get?] at hget
      cases hg : (splitLines text).get? j with
      | none => rw [hg] at hget; exact Option.noConfusion hget
      | some l =>
        rw [hg] at hget
        injection hget with hget
        subst hget
        simp only [Nat.zero_add] at hs2 he2 hnb ⊢
        have hin : (decide (s ≤ j) && decide (j ≤ e)) = true := by
          simp [hs2, he2]
        rw [hin] at hnb ⊢
        by_cases hb : (trimBoth l).isEmpty = true
        · rw [toggleLine_blank _ _ _ l hb, hb] at hnb
          exact Bool.noConfusion hnb
        · have hb' : (trimBoth l).isEmpty = false := by simpa using hb
          have hp := H' j l hg hs2 he2 hb'
          rw [toggleLine_comment _ l hb' hp.1]
          rw [parseCommentLine_mk _ _ _
            (fun x hx => List.mem_takeWhile_imp hx)
            (by exact hcc)
            (by rw [← dropWhile_eq_drop_len]; exact hp.2)]
          rfl
    rw [h2, toggleCommentLines_eq, h3, h4]
    have h6 : idxMap (fun i l => toggleLine (normalizeFormatterOptions o) false
        (s ≤ i && i ≤ e) l) 0 (idxMap (fun i l => toggleLine (normalizeFormatterOptions o)
          true (s ≤ i && i ≤ e) l) 0 (splitLines text)) = splitLines text := by
      apply List.ext_get?
      intro n
      rw [idxMap_get?, idxMap_get?]
      cases hg : (splitLines text).get? n with
      | none => rfl
      | some l =>
        simp only [Option.map_some', Nat.zero_add]
        congr 1
        cases hin : (decide (s ≤ n) && decide (n ≤ e)) with
        | false => rw [toggleLine_false, toggleLine_false]
        | true =>
          rw [Bool.and_eq_true] at hin
          have hs2 : s ≤ n := of_decide_eq_true hin.1
          have he2 : n ≤ e := of_decide_eq_true hin.2
          by_cases hb : (trimBoth l).isEmpty = true
          · rw [toggleLine_blank _ _ _ l hb, toggleLine_blank _ _ _ l hb]
          · have hb' : (trimBoth l).isEmpty = false := by simpa using hb
            have hp := H' n l hg hs2 he2 hb'
            rw [toggleLine_comment _ l hb' hp.1]
            rw [toggleLine_uncomment _ _
              ⟨(normalizeFormatterOptions o).commentCharacter, l.takeWhile jsWs,
                l.drop (l.takeWhile jsWs).length⟩ ?_ ?_]
            · exact takeWhile_append_drop jsWs l
            · rw [Bool.eq_false_iff]
              intro habs
              have hws := (trimBoth_isEmpty_iff _).1 habs
              have : jsWs (normalizeFormatterOptions o).commentCharacter = true := by
                apply hws
                exact List.mem_append.2 (Or.inr (List.mem_cons_self _ _))
              rcases hcc with h1 | h1 | h1 <;> rw [h1] at this <;> exact Bool.noConfusion this
            · exact parseCommentLine_mk _ _ _ (fun x hx => List.mem_takeWhile_imp hx) hcc
                (by rw [← dropWhile_eq_drop_len]; exact (H' n l hg hs2 he2 hb').2)
    rw [h6]
    exact joinLines_splitLines text
  · -- everything in range is blank or (by H) nothing changes: uncomment mode is the identity
    have hU' : hasUncommentedLines (splitLines text) s e = false := by
      simpa using hU
    have hid : idxMap (fun i l => toggleLine (normalizeFormatterOptions o) false
        (s ≤ i && i ≤ e) l) 0 (splitLines text) = splitLines text := by
      apply List.ext_get?
      intro n
      rw [idxMap_get?]
      cases hg : (splitLines text).get? n with
      | none => rfl
      | some l =>
        simp only [Option.map_some', Nat.zero_add]
        congr 1
        cases hin : (decide (s ≤ n) && decide (n ≤ e)) with
        | false => rw [toggleLine_false]
        | true =>
          rw [Bool.and_eq_true] at hin
          have hs2 : s ≤ n := of_decide_eq_true hin.1
          have he2 : n ≤ e := of_decide_eq_true hin.2
          by_cases hb : (trimBoth l).isEmpty = true
          · exact toggleLine_blank _ _ _ l hb
          · exact toggleLine_uncomment_none _ l
              (H' n l hg hs2 he2 (by simpa using hb)).1
    have h1 : toggleCommentLines text s e o = text := by
      rw [toggleCommentLines_eq, hU', hid]
      exact joinLines_splitLines text
    rw [h1, h1]

/-- Witness for C4: the round trip at a concrete journal and range in which
every non-blank selected line is uncommented. -/
theorem C4_toggle_roundtrip_witness :
    toggleCommentLines (toggleCommentLines ("  foo\nbar\n\nbaz".toList) 0 3 .noArg) 0 3 .noArg =
      "  foo\nbar\n\nbaz".toList :=
  C4_toggle_roundtrip ("  foo\nbar\n\nbaz".toList) 0 3 .noArg (by decide)

theorem splitLines_toggleCommentLines (text : Str) (s e : Nat) (o : NormInput) :
    splitLines (toggleCommentLines text s e o) =
      idxMap (fun i l => toggleLine (normalizeFormatterOptions o)
        (hasUncommentedLines (splitLines text) s e) (s ≤ i && i ≤ e) l) 0 (splitLines text) := by
  have hcc := normalize_commentChar o
  rw [toggleCommentLines_eq]
  apply splitLines_joinLines
  · intro l2 hl2
    obtain ⟨n, hn⟩ := List.mem_iff_get?.1 hl2
    rw [idxMap_get?] at hn
    cases hg : (splitLines text).get? n with
    | none => rw [hg] at hn; exact Option.noConfusion hn
    | some l =>
      rw [hg] at hn
      injection hn with hn
      subst hn
      exact toggleLine_no_newline _ _ _ l hcc
        (splitLines_no_newline text l (List.mem_iff_get?.2 ⟨n, hg⟩))
  · intro hnil
    have hlen := idxMap_length (fun i l => toggleLine (normalizeFormatterOptions o)
      (hasUncommentedLines (splitLines text) s e) (s ≤ i && i ≤ e) l) 0 (splitLines text)
    rw [hnil] at hlen
    exact splitLines_ne_nil text (List.length_eq_zero.1 hlen.symm)

/-- C10: `toggleCommentLines` only touches the selected range — the result has
exactly as many lines as the input, and every line outside the range, as well
as every blank line inside it, is unchanged. -/
theorem C10_toggle_frame (text : Str) (s e : Nat) (o : NormInput) :
    (splitLines (toggleCommentLines text s e o)).length = (splitLines text).length ∧
    ∀ i l, (splitLines text).get? i = some l →
      (i < s ∨ e < i ∨ (trimBoth l).isEmpty = true) →
      (splitLines (toggleCommentLines text s e o)).get? i = some l := by
  constructor
  · rw [splitLines_toggleCommentLines, idxMap_length]
  · intro i l hget hside
    rw [splitLines_toggleCommentLines, idxMap_get?, hget]
    simp only [Option.map_some', Nat.zero_add]
    congr 1
    rcases hside with h1 | h1 | h1
    · rw [show (decide (s ≤ i) && decide (i ≤ e)) = false from by
        simp [Nat.not_le.2 h1]]
      exact toggleLine_false _ _ l
    · rw [show (decide (s ≤ i) && decide (i ≤ e)) = false from by
        simp [Nat.not_le.2 h1]]
      exact toggleLine_false _ _ l
    · exact toggleLine_blank _ _ _ l h1

/-- Witness for C10: the frame property applied at a concrete text, with a
line strictly after the toggled range kept unchanged. -/
theorem C10_toggle_frame_witness :
    (splitLines (toggleCommentLines ("a\n;x\n b".toList) 0 0 .noArg)).get? 2 =
      some (" b".toList) :=
  (C10_toggle_frame ("a\n;x\n b".toList) 0 0 .noArg).2 2 (" b".toList) (by decide) (by decide)

theorem strLtB_irrefl : ∀ a : Str, strLtB a a = false := by
  intro a
  induction a with
  | nil => rfl
  | cons c cs ih => simp [strLtB, lt_irrefl, ih]

theorem strLtB_asymm : ∀ a b : Str, strLtB a b = true → strLtB b a = false := by
  intro a
  induction a with
  | nil =>
    intro b h
    cases b with
    | nil => rfl
    | cons d ds => rfl
  | cons c cs ih =>
    intro b h
    cases b with
    | nil => exact Bool.noConfusion h
    | cons d ds =>
      simp only [strLtB] at h ⊢
      by_cases hcd : c < d
      · rw [if_neg (asymm hcd), if_pos hcd]
      · rw [if_neg hcd] at h
        by_cases hdc : d < c
        · rw [if_pos hdc] at h
          exact Bool.noConfusion h
        · rw [if_neg hdc] at h
          rw [if_neg hdc, if_neg hcd]
          exact ih ds h

theorem strLtB_trans : ∀ a b c : Str, strLtB a b = true → strLtB b c = true →
    strLtB a c = true := by
  intro a
  induction a with
  | nil =>
    intro b c hab hbc
    cases c with
    | nil =>
      cases b with
      | nil => exact hab
      | cons d ds => exact Bool.noConfusion hbc
    | cons e es => rfl
  | cons x xs ih =>
    intro b c hab hbc
    cases b with
    | nil => exact Bool.noConfusion hab
    | cons y ys =>
      cases c with
      | nil => exact Bool.noConfusion hbc
      | cons z zs =>
        simp only [strLtB] at hab hbc ⊢
        by_cases hxy : x < y
        · by_cases hyz : y < z
          · rw [if_pos (lt_trans hxy hyz)]
          · rw [if_neg hyz] at hbc
            by_cases hzy : z < y
            · rw [if_pos hzy] at hbc
              exact Bool.noConfusion hbc
            · have : y = z := le_antisymm (not_lt.1 hzy) (not_lt.1 hyz)
              subst this
              rw [if_pos hxy]
        · rw [if_neg hxy] at hab
          by_cases hyx : y < x
          · rw [if_pos hyx] at hab
            exact Bool.noConfusion hab
          · have : x = y := le_antisymm (not_lt.1 hyx) (not_lt.1 hxy)
            subst this
            rw [if_neg hxy] at hab
            by_cases hyz : x < z
            · rw [if_pos hyz]
            · rw [if_neg hyz] at hbc ⊢
              by_cases hzy : z < x
              · rw [if_pos hzy] at hbc
                exact Bool.noConfusion hbc
              · rw [if_neg hzy] at hbc
                rw [if_neg hzy]
                exact ih ys zs hab hbc

theorem strLtB_conn : ∀ a b : Str, strLtB a b = false → strLtB b a = false → a = b := by
  intro a
  induction a with
  | nil =>
    intro b hab _
    cases b with
    | nil => rfl
    | cons d ds => exact Bool.noConfusion hab
  | cons x xs ih =>
    intro b hab hba
    cases b with
    | nil => exact Bool.noConfusion hba
    | cons y ys =>
      simp only [strLtB] at hab hba
      by_cases hxy : x < y
      · rw [if_pos hxy] at hab
        exact Bool.noConfusion hab
      · by_cases hyx : y < x
        · rw [if_pos hyx] at hba
          exact Bool.noConfusion hba
        · have hx : x = y := le_antisymm (not_lt.1 hyx) (not_lt.1 hxy)
          subst hx
          rw [if_neg hxy, if_neg hxy] at hab hba
          rw [ih ys hab hba]

theorem strLtB_not_lt_trans (a b c : Str) (h1 : strLtB b a = false)
    (h2 : strLtB c b = false) : strLtB c a = false := by
  by_contra h
  have hca : strLtB c a = true := by simpa using h
  by_cases hab : strLtB a b = true
  · have := strLtB_trans c a b hca hab
    rw [this] at h2
    exact Bool.noConfusion h2
  · have hab' : strLtB a b = false := by simpa using hab
    have : a = b := strLtB_conn a b hab' h1
    subst this
    rw [hca] at h2
    exact Bool.noConfusion h2

theorem insertTxn_perm (x : TxnRec) : ∀ l : List TxnRec, (insertTxn x l).Perm (x :: l) := by
  intro l
  induction l with
  | nil => exact List.Perm.refl _
  | cons y ys ih =>
    unfold insertTxn
    by_cases h : strLtB y.date x.date = true
    · rw [if_pos h]
      exact (ih.cons y).trans (List.Perm.swap x y ys)
    · rw [if_neg h]

theorem sortTxns_perm : ∀ l : List TxnRec, (sortTxns l).Perm l := by
  intro l
  induction l with
  | nil => exact List.Perm.refl _
  | cons x xs ih =>
    unfold sortTxns
    exact (insertTxn_perm x (sortTxns xs)).trans (ih.cons x)

theorem insertTxn_pairwise (x : TxnRec) : ∀ l : List TxnRec,
    List.Pairwise (fun a b => strLtB b.date a.date = false) l →
    List.Pairwise (fun a b => strLtB b.date a.date = false) (insertTxn x l) := by
  intro l
  induction l with
  | nil => intro _; exact List.pairwise_singleton _ x
  | cons y ys ih =>
    intro hp
    rw [List.pairwise_cons] at hp
    obtain ⟨hy, hys⟩ := hp
    unfold insertTxn
    by_cases h : strLtB y.date x.date = true
    · rw [if_pos h]
      rw [List.pairwise_cons]
      refine ⟨?_, ih hys⟩
      intro z hz
      rcases List.mem_cons.1 ((insertTxn_perm x ys).mem_iff.1 hz) with rfl | hzys
      · exact strLtB_asymm y.date z.date h
      · exact hy z hzys
    · rw [if_neg h]
      have h' : strLtB y.date x.date = false := by simpa using h
      rw [List.pairwise_cons]
      refine ⟨?_, List.pairwise_cons.2 ⟨hy, hys⟩⟩
      intro z hz
      rcases List.mem_cons.1 hz with rfl | hzys
      · exact h'
      · exact strLtB_not_lt_trans x.date y.date z.date h' (hy z hzys)

theorem sortTxns_pairwise : ∀ l : List TxnRec,
    List.Pairwise (fun a b => strLtB b.date a.date = false) (sortTxns l) := by
  intro l
  induction l with
  | nil => exact List.Pairwise.nil
  | cons x xs ih => exact insertTxn_pairwise x (sortTxns xs) ih

theorem insertTxn_filter (x : TxnRec) (k : Str) : ∀ l : List TxnRec,
    (insertTxn x l).filter (fun t => t.date = k) =
      (x :: l).filter (fun t => t.date = k) := by
  intro l
  induction l with
  | nil => rfl
  | cons y ys ih =>
    unfold insertTxn
    by_cases h : strLtB y.date x.date = true
    · rw [if_pos h]
      by_cases hx : x.date = k
      · have hyk : ¬(y.date = k) := by
          intro hyk
          rw [hyk, ← hx, strLtB_irrefl] at h
          exact Bool.noConfusion h
        simp [List.filter_cons, ih, hx, hyk]
      · simp [List.filter_cons, ih, hx]
    · rw [if_neg h]

theorem sortTxns_filter (k : Str) : ∀ l : List TxnRec,
    (sortTxns l).filter (fun t => t.date = k) = l.filter (fun t => t.date = k) := by
  intro l
  induction l with
  | nil => rfl
  | cons x xs ih =>
    unfold sortTxns
    rw [insertTxn_filter x k (sortTxns xs)]
    simp [List.filter_cons, ih]

/-- C5 (amended): `sortHledgerJournal` re-emits the segmented transaction
blocks stably sorted by their ISO date key: the output is the re-emission of
the sorted block list (with the leading content, if any, in front, and at most
one final newline appended); the sorted list is ordered nondecreasingly by
date key, is a permutation of the parsed list, and for every date key the
blocks carrying that key keep their original relative order and their stored
text — original header date text included — character-for-character unchanged.
(The idempotence conjunct `sort(sort(x)) = sort(x)` of the claim is false, see
the counterexample: a transaction that swallowed trailing blank lines into its
content is segmented differently by the second pass.) -/
theorem C5_sort_ordering (text : Str) :
    (∃ res0 : List Str,
      sortHledgerJournal text =
          joinLines (res0 ++ emitTxns
            (sortTxns (parseTransactionsWithLeading text).transactions)) ∨
        sortHledgerJournal text =
          joinLines (res0 ++ emitTxns
            (sortTxns (parseTransactionsWithLeading text).transactions)) ++ ['\n']) ∧
    List.Pairwise (fun a b => strLtB b.date a.date = false)
      (sortTxns (parseTransactionsWithLeading text).transactions) ∧
    (sortTxns (parseTransactionsWithLeading text).transactions).Perm
      (parseTransactionsWithLeading text).transactions ∧
    ∀ k, (sortTxns (parseTransactionsWithLeading text).transactions).filter
        (fun t => t.date = k) =
      (parseTransactionsWithLeading text).transactions.filter (fun t => t.date = k) := by
  refine ⟨?_, sortTxns_pairwise _, sortTxns_perm _, fun k => sortTxns_filter k _⟩
  unfold sortHledgerJournal sortedEmission
  refine ⟨sortLeadSegment (parseTransactionsWithLeading text)
    (sortTxns (parseTransactionsWithLeading text).transactions), ?_⟩
  by_cases hC : (decide (text.getLast? = some '\n') &&
      decide ((joinLines (sortLeadSegment (parseTransactionsWithLeading text)
          (sortTxns (parseTransactionsWithLeading text).transactions) ++
        emitTxns (sortTxns (parseTransactionsWithLeading text).transactions))).getLast? ≠
          some '\n')) = true
  · rw [if_pos hC]
    right
    rfl
  · rw [if_neg hC]
    left
    rfl

theorem foldl_max_le_init : ∀ (l : List Nat) (a : Nat), a ≤ l.foldl max a := by
  intro l
  induction l with
  | nil => intro a; exact Nat.le_refl a
  | cons x xs ih =>
    intro a
    exact le_trans (Nat.le_max_left a x) (ih (max a x))

theorem foldl_max_le_mem : ∀ (l : List Nat) (a x : Nat), x ∈ l → x ≤ l.foldl max a := by
  intro l
  induction l with
  | nil => intro a x hx; exact absurd hx (List.not_mem_nil x)
  | cons y ys ih =>
    intro a x hx
    rcases List.mem_cons.1 hx with rfl | hx2
    · exact le_trans (Nat.le_max_right a x) (foldl_max_le_init ys (max a x))
    · exact ih (max a y) x hx2

theorem foldl_max_shift : ∀ (l : List Nat) (a : Nat), l.foldl max a = max a (l.foldl max 0) := by
  intro l
  induction l with
  | nil => intro a; exact (Nat.max_zero a).symm
  | cons x xs ih =>
    intro a
    show xs.foldl max (max a x) = max a (xs.foldl max (max 0 x))
    rw [ih (max a x), Nat.max_assoc, Nat.zero_max, ← ih x]

theorem baseDigitsColumn_eq_claim (opts : FormatterOptions) (prepared : List PreparedPosting)
    (hw : opts.amountAlignment = .widest) :
    baseDigitsColumn opts prepared = claimWidestColumn opts prepared := by
  unfold baseDigitsColumn claimWidestColumn
  rw [hw]
  by_cases hc : (digitColumnCandidates opts.indentationWidth prepared).isEmpty = true
  · rw [if_pos hc]
    rw [List.isEmpty_iff.1 hc]
    simp [referenceAccountLength]
  · rw [if_neg hc]
    rw [foldl_max_shift]

theorem preparePosting_eq (opts : FormatterOptions) (line : Str) :
    preparePosting opts line = ⟨extractPostingDetail line, none, 0⟩ ∨
    ∃ a0, preparePosting opts line =
      ⟨extractPostingDetail line, some (trimBoth a0), getDigitsPrefixLength (trimBoth a0)⟩ := by
  unfold preparePosting
  split
  · left
    rfl
  · split
    · left
      rfl
    · rename_i a0 h0
      right
      exact ⟨a0, rfl⟩

theorem preparePosting_dpl (opts : FormatterOptions) (line : Str) :
    ∀ a, (preparePosting opts line).formattedAmount = some a →
      (preparePosting opts line).digitsPrefixLength = getDigitsPrefixLength a := by
  intro a ha
  rcases preparePosting_eq opts line with h | ⟨a0, h⟩
  · rw [h] at ha
    exact absurd ha (by simp)
  · rw [h] at ha ⊢
    injection ha with ha
    show getDigitsPrefixLength (trimBoth a0) = getDigitsPrefixLength a
    rw [ha]

theorem preparePosting_detail (opts : FormatterOptions) (line : Str) :
    (preparePosting opts line).detail = extractPostingDetail line := by
  rcases preparePosting_eq opts line with h | ⟨a0, h⟩ <;> rw [h]

theorem trimL_sublist (s : Str) : (trimL s).Sublist s := List.dropWhile_sublist _

theorem trimBoth_sublist (s : Str) : (trimBoth s).Sublist s := by
  unfold trimBoth trimR
  have h1 : ((trimL s).reverse.dropWhile jsWs).Sublist (trimL s).reverse :=
    List.dropWhile_sublist _
  have h2 := h1.reverse
  rw [List.reverse_reverse] at h2
  exact h2.trans (trimL_sublist s)

theorem trimBoth_mem_trimL (s : Str) (c : Char) (h : c ∈ trimBoth s) : c ∈ trimL s := by
  unfold trimBoth trimR at h
  have h1 : ((trimL s).reverse.dropWhile jsWs).Sublist (trimL s).reverse :=
    List.dropWhile_sublist _
  have h2 := h1.reverse
  rw [List.reverse_reverse] at h2
  exact h2.mem (List.mem_reverse.1 (by simpa using h))

theorem matchNumTok_some_digit (s : Str) (num rest : Str)
    (h : matchNumTok s = some (num, rest)) : ∃ c ∈ s, isDigitCh c = true := by
  unfold matchNumTok at h
  by_cases hd : (s.takeWhile isDigitCh).isEmpty = true
  · rw [if_pos hd] at h
    exact absurd h (by simp)
  · cases he : s.takeWhile isDigitCh with
    | nil => rw [he] at hd; exact absurd rfl hd
    | cons d ds =>
      have hdm : d ∈ s.takeWhile isDigitCh := by
        rw [he]
        exact List.mem_cons_self d ds
      exact ⟨d, List.Sublist.mem hdm (List.takeWhile_sublist _), List.mem_takeWhile_imp hdm⟩

theorem matchQuoted_suffix (s q rest : Str) (h : matchQuoted s = some (q, rest)) :
    rest <:+ s := by
  unfold matchQuoted at h
  split at h
  · rename_i s0
    by_cases hemp : (s0.takeWhile (· ≠ '"')).isEmpty = true
    · rw [if_pos hemp] at h
      exact absurd h (by simp)
    · rw [if_neg hemp] at h
      split at h
      · rename_i r1 heq
        injection h with h2
        injection h2 with _ h3
        subst h3
        have h4 : '"' :: r1 <:+ s0 := by
          rw [← heq]
          exact List.drop_suffix _ s0
        exact ((List.suffix_cons '"' r1).trans h4).trans (List.suffix_cons '"' s0)
      · exact absurd h (by simp)
  · exact absurd h (by simp)

theorem cfAfterCurrency_digit (sign1 : Bool) (currency r1 : Str) (m : CurrencyFirstMatch)
    (h : cfAfterCurrency sign1 currency r1 = some m) : ∃ c ∈ r1, isDigitCh c = true := by
  have key : ∀ (r : Str) (c : Char), c ∈ r → isDigitCh c = true →
      r = r1.dropWhile jsWs ∨ (∃ r3, r1.dropWhile jsWs = '-' :: r3 ∧ r = r3) →
      ∃ c2 ∈ r1, isDigitCh c2 = true := by
    intro r c hc hdig hr
    have hmem : c ∈ r1.dropWhile jsWs := by
      rcases hr with rfl | ⟨r3, heq, rfl⟩
      · exact hc
      · rw [heq]
        exact List.mem_cons_of_mem _ hc
    exact ⟨c, List.Sublist.mem hmem (List.dropWhile_sublist _), hdig⟩
  unfold cfAfterCurrency at h
  split at h
  · rename_i r3 heq
    cases hmt : matchNumTok r3 with
    | none => rw [hmt] at h; exact absurd h (by simp)
    | some pr =>
      obtain ⟨c, hc, hdig⟩ := matchNumTok_some_digit r3 pr.1 pr.2 (by rw [hmt])
      exact key r3 c hc hdig (Or.inr ⟨r3, heq, rfl⟩)
  · cases hmt : matchNumTok (r1.dropWhile jsWs) with
    | none => rw [hmt] at h; exact absurd h (by simp)
    | some pr =>
      obtain ⟨c, hc, hdig⟩ :=
        matchNumTok_some_digit (r1.dropWhile jsWs) pr.1 pr.2 (by rw [hmt])
      exact key _ c hc hdig (Or.inl rfl)

theorem cfCurrency_digit (sign1 : Bool) (r0 : Str) (m : CurrencyFirstMatch)
    (h : cfCurrency sign1 r0 = some m) : ∃ c ∈ r0, isDigitCh c = true := by
  unfold cfCurrency at h
  split at h
  · rename_i cq rq heq
    obtain ⟨c, hc, hdig⟩ := cfAfterCurrency_digit _ _ _ _ h
    exact ⟨c, List.IsSuffix.mem hc (matchQuoted_suffix r0 cq rq heq), hdig⟩
  · by_cases hemp : (r0.takeWhile isCurrencyCh).isEmpty = true
    · rw [if_pos hemp] at h
      exact absurd h (by simp)
    · rw [if_neg hemp] at h
      obtain ⟨c, hc, hdig⟩ := cfAfterCurrency_digit _ _ _ _ h
      exact ⟨c, List.Sublist.mem hc (List.dropWhile_sublist _), hdig⟩

theorem currencyFirstMatch_digit (t : Str) (m : CurrencyFirstMatch)
    (h : currencyFirstMatch t = some m) : ∃ c ∈ t, isDigitCh c = true := by
  unfold currencyFirstMatch at h
  split at h
  · rename_i t0
    obtain ⟨c, hc, hdig⟩ := cfCurrency_digit _ _ _ h
    exact ⟨c, List.mem_cons_of_mem _ hc, hdig⟩
  · exact cfCurrency_digit _ _ _ h

theorem nfNum_digit (sign1 : Bool) (r0 : Str) (m : NumberFirstMatch)
    (h : nfNum sign1 r0 = some m) : ∃ c ∈ r0, isDigitCh c = true := by
  unfold nfNum at h
  split at h
  · exact absurd h (by simp)
  · rename_i num r heq
    exact matchNumTok_some_digit r0 num r heq

theorem numberFirstMatch_digit (t : Str) (m : NumberFirstMatch)
    (h : numberFirstMatch t = some m) : ∃ c ∈ t, isDigitCh c = true := by
  unfold numberFirstMatch at h
  split at h
  · rename_i t0
    obtain ⟨c, hc, hdig⟩ := nfNum_digit _ _ _ h
    exact ⟨c, List.mem_cons_of_mem _ hc, hdig⟩
  · exact nfNum_digit _ _ _ h

theorem parseAmount_digit (s : Str) (h : parseAmount s ≠ none) :
    ∃ c ∈ trimBoth s, isDigitCh c = true := by
  cases hcf : currencyFirstMatch (trimBoth s) with
  | some m => exact currencyFirstMatch_digit _ m hcf
  | none =>
    cases hnf : numberFirstMatch (trimBoth s) with
    | some m => exact numberFirstMatch_digit _ m hnf
    | none =>
      exact absurd (by simp only [parseAmount, hcf, hnf]) h

theorem getDigitsPrefixLength_lt (a : Str) (h : ∃ c ∈ trimBoth a, isDigitCh c = true) :
    getDigitsPrefixLength a < a.length := by
  obtain ⟨c, hc, hdig⟩ := h
  have h1 : c ∈ trimL a := trimBoth_mem_trimL a c hc
  have h2 : (trimL a).findIdx isDigitCh < (trimL a).length :=
    List.findIdx_lt_length.2 ⟨c, h1, hdig⟩
  exact lt_of_lt_of_le h2 (List.Sublist.length_le (trimL_sublist a))

theorem dropWhile_head_false (l : Str) (c : Char) (r : Str)
    (h : l.dropWhile jsWs = c :: r) : jsWs c = false := by
  induction l with
  | nil => exact absurd h (by simp)
  | cons x xs ih =>
    rw [List.dropWhile_cons] at h
    by_cases hx : jsWs x = true
    · rw [if_pos hx] at h
      exact ih h
    · rw [if_neg hx] at h
      injection h with h1 _
      rw [← h1]
      exact Bool.not_eq_true _ ▸ hx

theorem trimR_isPre (t : Str) : trimR t <+: t := by
  have h : (t.reverse.dropWhile jsWs) <:+ t.reverse := List.dropWhile_suffix _
  have h2 := (@List.reverse_prefix _ (t.reverse.dropWhile jsWs) t.reverse).2 h
  rw [List.reverse_reverse] at h2
  exact h2

theorem trimL_trimBoth (s : Str) : trimL (trimBoth s) = trimBoth s := by
  show trimL (trimR (trimL s)) = trimR (trimL s)
  cases ht : trimR (trimL s) with
  | nil => rfl
  | cons c r =>
    have hpre : trimR (trimL s) <+: trimL s := trimR_isPre _
    rw [ht] at hpre
    obtain ⟨u, hu⟩ := hpre
    have hc : jsWs c = false := by
      apply dropWhile_head_false s c (r ++ u)
      show trimL s = c :: (r ++ u)
      rw [← hu]
      rfl
    show (c :: r).dropWhile jsWs = c :: r
    rw [List.dropWhile_cons, hc]
    simp

theorem digitColumnCandidates_mem (iw : Nat) (prepared : List PreparedPosting)
    (p : PreparedPosting) (acct : Str) (hp : p ∈ prepared)
    (hacct : p.detail.account = some acct) (hamt : p.formattedAmount.isSome = true) :
    iw + acct.length + p.digitsPrefixLength + 2 ∈ digitColumnCandidates iw prepared := by
  unfold digitColumnCandidates
  apply List.mem_map.2
  refine ⟨p, List.mem_filter.2 ⟨hp, ?_⟩, ?_⟩
  · rw [hacct, hamt]
    rfl
  · rw [hacct]

theorem baseDigitsColumn_ge (options : FormatterOptions) (prepared : List PreparedPosting)
    (hw : options.amountAlignment = AmountAlignment.widest) (x : Nat)
    (hx : x ∈ digitColumnCandidates options.indentationWidth prepared) :
    x ≤ baseDigitsColumn options prepared := by
  unfold baseDigitsColumn
  rw [hw]
  have hne : (digitColumnCandidates options.indentationWidth prepared).isEmpty = false := by
    cases he : (digitColumnCandidates options.indentationWidth prepared).isEmpty
    · rfl
    · rw [List.isEmpty_iff.1 he] at hx
      exact absurd hx (List.not_mem_nil x)
  simp only [hne, Bool.false_eq_true, if_false]
  exact foldl_max_le_mem _ _ x hx

theorem emitPosting_eq (options : FormatterOptions) (base : Nat) (p : PreparedPosting)
    (acct amt : Str) (hacct : p.detail.account = some acct)
    (hamt : p.formattedAmount = some amt) :
    emitPosting options base p =
      spaces options.indentationWidth ++ acct ++
        spaces ((max 2 ((base : ℤ) - ((options.indentationWidth : ℤ) + (acct.length : ℤ)) -
          (p.digitsPrefixLength : ℤ))).toNat) ++ amt := by
  unfold emitPosting
  rw [hacct, hamt]

theorem formatTransaction_cons2 (h1 h2 : Str) (t : List Str) (options : FormatterOptions)
    (hne : ((h2 :: t).filter (fun l => !isCommentLine l)).isEmpty = false) :
    formatTransaction (h1 :: h2 :: t) options =
      formatTransactionHeader h1 options ::
        (h2 :: t).filter (fun l => isCommentLine l) ++
        (((h2 :: t).filter (fun l => !isCommentLine l)).map (preparePosting options)).map
          (emitPosting options (baseDigitsColumn options
            (((h2 :: t).filter (fun l => !isCommentLine l)).map (preparePosting options)))) := by
  conv_lhs => unfold formatTransaction
  simp only [hne, Bool.false_eq_true, if_false]

/-- C2: with `widest` alignment, every posting of a transaction that carries an
account and a style-formatted amount with a parseable value is re-emitted by
`formatTransaction` as indentation, account and padding followed by the amount,
and the column of the amount's first digit — indentWidth + accountLength +
padding + digitsPrefixLength — equals the per-transaction column
max(indentWidth + longestAccountLength + 2, max over the amount-bearing
postings of indentWidth + thatAccountLength + itsDigitsPrefixLength + 2); the
digits-prefix length really points at a digit of the amount. -/
theorem C2_widest_alignment
    (h1 h2 : Str) (t : List Str) (options : FormatterOptions)
    (hw : options.amountAlignment = AmountAlignment.widest)
    (p : PreparedPosting) (acct amt : Str)
    (hp : p ∈ ((h2 :: t).filter (fun l => !isCommentLine l)).map (preparePosting options))
    (hacct : p.detail.account = some acct)
    (hamt : p.formattedAmount = some amt)
    (hparse : parseAmount amt ≠ none) :
    emitPosting options
        (baseDigitsColumn options
          (((h2 :: t).filter (fun l => !isCommentLine l)).map (preparePosting options))) p
      ∈ formatTransaction (h1 :: h2 :: t) options ∧
    ∃ pad,
      emitPosting options
          (baseDigitsColumn options
            (((h2 :: t).filter (fun l => !isCommentLine l)).map (preparePosting options))) p =
        spaces options.indentationWidth ++ acct ++ spaces pad ++ amt ∧
      options.indentationWidth + acct.length + pad + getDigitsPrefixLength amt =
        claimWidestColumn options
          (((h2 :: t).filter (fun l => !isCommentLine l)).map (preparePosting options)) ∧
      getDigitsPrefixLength amt < amt.length ∧
      ∃ d, amt.get? (getDigitsPrefixLength amt) = some d ∧ isDigitCh d = true := by
  have hne : ((h2 :: t).filter (fun l => !isCommentLine l)).isEmpty = false := by
    cases he : ((h2 :: t).filter (fun l => !isCommentLine l)).isEmpty
    · rfl
    · exfalso
      rw [List.isEmpty_iff.1 he] at hp
      simp at hp
  obtain ⟨l, hl, hpl⟩ := List.mem_map.1 hp
  have hdpl : p.digitsPrefixLength = getDigitsPrefixLength amt := by
    rw [← hpl]
    exact preparePosting_dpl options l amt (by rw [hpl]; exact hamt)
  have hamt_tb : trimL amt = amt := by
    rcases preparePosting_eq options l with h | ⟨a0, h⟩
    · rw [hpl] at h
      rw [h] at hamt
      exact absurd hamt (by simp)
    · rw [hpl] at h
      rw [h] at hamt
      injection hamt with hamt2
      rw [← hamt2]
      exact trimL_trimBoth a0
  have hcand : options.indentationWidth + acct.length + p.digitsPrefixLength + 2 ∈
      digitColumnCandidates options.indentationWidth
        (((h2 :: t).filter (fun l => !isCommentLine l)).map (preparePosting options)) :=
    digitColumnCandidates_mem _ _ p acct hp hacct (by rw [hamt]; rfl)
  have hge := baseDigitsColumn_ge options
    (((h2 :: t).filter (fun l => !isCommentLine l)).map (preparePosting options)) hw _ hcand
  have hce := baseDigitsColumn_eq_claim options
    (((h2 :: t).filter (fun l => !isCommentLine l)).map (preparePosting options)) hw
  have hlt : getDigitsPrefixLength amt < amt.length :=
    getDigitsPrefixLength_lt amt (parseAmount_digit amt hparse)
  have hgd : getDigitsPrefixLength amt = amt.findIdx isDigitCh := by
    unfold getDigitsPrefixLength
    rw [hamt_tb]
  refine ⟨?_, _, emitPosting_eq options _ p acct amt hacct hamt, ?_, hlt, ?_⟩
  · rw [formatTransaction_cons2 h1 h2 t options hne]
    exact List.mem_cons_of_mem _ (List.mem_append_right _ (List.mem_map_of_mem _ hp))
  · rw [hdpl] at hge
    rw [hdpl]
    omega
  · have h5 : amt.findIdx isDigitCh < amt.length := by
      rw [← hgd]
      exact hlt
    refine ⟨amt.get ⟨amt.findIdx isDigitCh, h5⟩, ?_, List.findIdx_get⟩
    rw [hgd]
    exact List.get?_eq_get h5

unseal Rat.add Rat.mul Rat.inv Rat.sub in
/-- Witness for C2 at the two-posting example transaction of the
specification: both amounts end with their first digit at column 28. -/
theorem C2_widest_alignment_witness :
    DEFAULT_FORMATTER_OPTIONS.amountAlignment = AmountAlignment.widest ∧
    parseAmount ("$85.50".toList) ≠ none ∧
    (emitPosting DEFAULT_FORMATTER_OPTIONS
        (baseDigitsColumn DEFAULT_FORMATTER_OPTIONS
          ((["  expenses:food  $85.50".toList,
             "  assets:bank:checking  $-85.50".toList].filter
            (fun l => !isCommentLine l)).map (preparePosting DEFAULT_FORMATTER_OPTIONS)))
        (preparePosting DEFAULT_FORMATTER_OPTIONS ("  expenses:food  $85.50".toList))
      ∈ formatTransaction ["2023-01-05 x".toList, "  expenses:food  $85.50".toList,
          "  assets:bank:checking  $-85.50".toList] DEFAULT_FORMATTER_OPTIONS ∧
    ∃ pad,
      emitPosting DEFAULT_FORMATTER_OPTIONS
          (baseDigitsColumn DEFAULT_FORMATTER_OPTIONS
            ((["  expenses:food  $85.50".toList,
               "  assets:bank:checking  $-85.50".toList].filter
              (fun l => !isCommentLine l)).map (preparePosting DEFAULT_FORMATTER_OPTIONS)))
          (preparePosting DEFAULT_FORMATTER_OPTIONS ("  expenses:food  $85.50".toList)) =
        spaces DEFAULT_FORMATTER_OPTIONS.indentationWidth ++ "expenses:food".toList ++
          spaces pad ++ "$85.50".toList ∧
      DEFAULT_FORMATTER_OPTIONS.indentationWidth + ("expenses:food".toList).length + pad +
          getDigitsPrefixLength ("$85.50".toList) =
        claimWidestColumn DEFAULT_FORMATTER_OPTIONS
          ((["  expenses:food  $85.50".toList,
             "  assets:bank:checking  $-85.50".toList].filter
            (fun l => !isCommentLine l)).map (preparePosting DEFAULT_FORMATTER_OPTIONS)) ∧
      getDigitsPrefixLength ("$85.50".toList) < ("$85.50".toList).length ∧
      ∃ d, ("$85.50".toList).get? (getDigitsPrefixLength ("$85.50".toList)) = some d ∧
        isDigitCh d = true) :=
  ⟨by decide, by decide,
    C2_widest_alignment ("2023-01-05 x".toList) ("  expenses:food  $85.50".toList)
      ["  assets:bank:checking  $-85.50".toList] DEFAULT_FORMATTER_OPTIONS (by decide)
      (preparePosting DEFAULT_FORMATTER_OPTIONS ("  expenses:food  $85.50".toList))
      ("expenses:food".toList) ("$85.50".toList) (by decide) (by decide) (by decide) (by decide)⟩

theorem matchNumTok_num_head (s num rest : Str) (h : matchNumTok s = some (num, rest)) :
    ∃ d ds, num = d :: ds ∧ isDigitCh d = true := by
  unfold matchNumTok at h
  by_cases he : (s.takeWhile isDigitCh).isEmpty = true
  · rw [if_pos he] at h
    exact absurd h (by simp)
  · rw [if_neg he] at h
    cases htw : s.takeWhile isDigitCh with
    | nil => rw [htw] at he; exact absurd rfl he
    | cons d ds0 =>
      have hd : isDigitCh d = true :=
        List.mem_takeWhile_imp (htw ▸ List.mem_cons_self d ds0)
      rw [htw] at h
      split at h
      · split at h
        · injection h with h1
          injection h1 with h1 _
          exact ⟨d, _, h1.symm, hd⟩
        · injection h with h1
          injection h1 with h1 _
          exact ⟨d, _, h1.symm, hd⟩
      · injection h with h1
        injection h1 with h1 _
        exact ⟨d, _, h1.symm, hd⟩

theorem parseFloatQ_digit_head (d : Char) (t : Str) (hd : isDigitCh d = true) :
    ∃ v : ℚ, parseFloatQ (d :: t) = some v ∧ 0 ≤ v := by
  have hne : ((d :: t).takeWhile isDigitCh).isEmpty = false := by
    rw [List.takeWhile_cons, hd]
    simp
  unfold parseFloatQ
  rw [hne]
  simp only [Bool.false_eq_true, if_false]
  split
  · exact ⟨_, rfl, by positivity⟩
  · exact ⟨_, rfl, by positivity⟩

theorem parseNumber_digit_head (d : Char) (ds : Str) (hd : isDigitCh d = true) :
    ∃ v : ℚ, parseNumber (d :: ds) = some v ∧ 0 ≤ v := by
  have hdc : ¬ d = ',' := by
    intro h
    rw [h] at hd
    exact absurd hd (by decide)
  unfold parseNumber
  split
  · have hrep : replaceFirstCommaByDot (d :: ds) = d :: replaceFirstCommaByDot ds := by
      rw [show replaceFirstCommaByDot (d :: ds) =
        if d = ',' then '.' :: ds else d :: replaceFirstCommaByDot ds from rfl, if_neg hdc]
    rw [hrep]
    exact parseFloatQ_digit_head d _ hd
  · have hfil : (d :: ds).filter (fun c => c ≠ ',') = d :: ds.filter (fun c => c ≠ ',') := by
      rw [List.filter_cons_of_pos]
      exact decide_eq_true hdc
    rw [hfil]
    exact parseFloatQ_digit_head d _ hd

theorem cfAfterCurrency_num (sign1 : Bool) (currency r1 : Str) (m : CurrencyFirstMatch)
    (h : cfAfterCurrency sign1 currency r1 = some m) :
    ∃ d ds, m.num = d :: ds ∧ isDigitCh d = true := by
  unfold cfAfterCurrency at h
  split at h
  · rename_i r3 heq
    cases hmt : matchNumTok r3 with
    | none => rw [hmt] at h; exact absurd h (by simp)
    | some pr =>
      obtain ⟨num, rest⟩ := pr
      rw [hmt] at h
      injection h with h2
      rw [← h2]
      exact matchNumTok_num_head r3 num rest hmt
  · cases hmt : matchNumTok (r1.dropWhile jsWs) with
    | none => rw [hmt] at h; exact absurd h (by simp)
    | some pr =>
      obtain ⟨num, rest⟩ := pr
      rw [hmt] at h
      injection h with h2
      rw [← h2]
      exact matchNumTok_num_head _ num rest hmt

theorem cfCurrency_num (sign1 : Bool) (r0 : Str) (m : CurrencyFirstMatch)
    (h : cfCurrency sign1 r0 = some m) : ∃ d ds, m.num = d :: ds ∧ isDigitCh d = true := by
  unfold cfCurrency at h
  split at h
  · exact cfAfterCurrency_num _ _ _ _ h
  · by_cases hemp : (r0.takeWhile isCurrencyCh).isEmpty = true
    · rw [if_pos hemp] at h
      exact absurd h (by simp)
    · rw [if_neg hemp] at h
      exact cfAfterCurrency_num _ _ _ _ h

theorem currencyFirstMatch_num (t : Str) (m : CurrencyFirstMatch)
    (h : currencyFirstMatch t = some m) : ∃ d ds, m.num = d :: ds ∧ isDigitCh d = true := by
  unfold currencyFirstMatch at h
  split at h
  · exact cfCurrency_num _ _ _ h
  · exact cfCurrency_num _ _ _ h

theorem nfAfterNum_num (sign1 : Bool) (num r1 : Str) (m : NumberFirstMatch)
    (h : nfAfterNum sign1 num r1 = some m) : m.num = num := by
  unfold nfAfterNum at h
  split at h
  · injection h with h2
    subst h2
    rfl
  · split at h
    · split at h
      · injection h with h2
        subst h2
        rfl
      · exact absurd h (by simp)
    · split at h
      · injection h with h2
        subst h2
        rfl
      · exact absurd h (by simp)

theorem nfNum_num (sign1 : Bool) (r0 : Str) (m : NumberFirstMatch)
    (h : nfNum sign1 r0 = some m) : ∃ d ds, m.num = d :: ds ∧ isDigitCh d = true := by
  unfold nfNum at h
  split at h
  · exact absurd h (by simp)
  · rename_i num r heq
    rw [nfAfterNum_num sign1 num r m h]
    exact matchNumTok_num_head r0 num r heq

theorem numberFirstMatch_num (t : Str) (m : NumberFirstMatch)
    (h : numberFirstMatch t = some m) : ∃ d ds, m.num = d :: ds ∧ isDigitCh d = true := by
  unfold numberFirstMatch at h
  split at h
  · exact nfNum_num _ _ _ h
  · exact nfNum_num _ _ _ h

theorem parseAmount_cf (s : Str) (m : CurrencyFirstMatch)
    (h : currencyFirstMatch (trimBoth s) = some m) :
    ∃ v : ℚ, 0 ≤ v ∧
      parseAmount s = some ⟨if m.sign1 || m.sign2 then -v else v, m.currency⟩ := by
  obtain ⟨d, ds, hnum, hd⟩ := currencyFirstMatch_num _ m h
  obtain ⟨v, hv, hv0⟩ := parseNumber_digit_head d ds hd
  refine ⟨v, hv0, ?_⟩
  simp only [parseAmount, h]
  rw [hnum, hv]

theorem parseAmount_nf (s : Str) (m : NumberFirstMatch)
    (hc : currencyFirstMatch (trimBoth s) = none)
    (h : numberFirstMatch (trimBoth s) = some m) :
    ∃ v : ℚ, 0 ≤ v ∧
      parseAmount s = some ⟨if m.sign1 then -v else v,
        match m.currency with | some c => c | none => ['$']⟩ := by
  obtain ⟨d, ds, hnum, hd⟩ := numberFirstMatch_num _ m h
  obtain ⟨v, hv, hv0⟩ := parseNumber_digit_head d ds hd
  refine ⟨v, hv0, ?_⟩
  simp only [parseAmount, hc, h]
  rw [hnum, hv]

unseal Rat.add Rat.mul Rat.inv Rat.sub in
/-- C7 counterexample: on `$-0` the currency-first grammar records the minus
standing immediately before the digits, yet the parsed value 0 is not
negative — the claim's "exactly when" fails at zero. -/
theorem C7_counterexample :
    ∃ m, currencyFirstMatch (trimBoth ("$-0".toList)) = some m ∧ m.sign2 = true ∧
      parseAmount ("$-0".toList) = some ⟨0, "$".toList⟩ ∧ ¬ (0 : ℚ) < 0 :=
  ⟨⟨false, "$".toList, true, "0".toList⟩, by decide, rfl, by decide, lt_irrefl 0⟩

unseal Rat.add Rat.mul Rat.inv Rat.sub in
/-- C7 (amended): a matched amount is negative exactly when the matched
grammar recorded a minus — before the currency or immediately before the
digits, either one and also both yielding a non-positive value — AND the
parsed magnitude is non-zero; `parseAmount` returns null exactly when
neither grammar matches; and the three quoted examples evaluate as stated. -/
theorem C7_parse_sign_null :
    (∀ s r m, parseAmount s = some r → currencyFirstMatch (trimBoth s) = some m →
      (r.value < 0 ↔ (m.sign1 || m.sign2) = true ∧ r.value ≠ 0)) ∧
    (∀ s r m, parseAmount s = some r → currencyFirstMatch (trimBoth s) = none →
      numberFirstMatch (trimBoth s) = some m →
      (r.value < 0 ↔ m.sign1 = true ∧ r.value ≠ 0)) ∧
    (∀ s, parseAmount s = none ↔
      currencyFirstMatch (trimBoth s) = none ∧ numberFirstMatch (trimBoth s) = none) ∧
    parseAmount ("\"US Dollar\" 100.00".toList) = some ⟨100, "\"US Dollar\"".toList⟩ ∧
    parseAmount ("-100.50 USD".toList) = some ⟨-(201 / 2 : ℚ), "USD".toList⟩ ∧
    parseAmount ("not a number".toList) = none := by
  refine ⟨?_, ?_, ?_, by decide, by decide, by decide⟩
  · intro s r m hr hcf
    obtain ⟨v, hv0, hpa⟩ := parseAmount_cf s m hcf
    rw [hr] at hpa
    injection hpa with hpa
    subst hpa
    cases hs : (m.sign1 || m.sign2) with
    | true =>
      show -v < 0 ↔ (true = true) ∧ -v ≠ 0
      constructor
      · intro hlt
        exact ⟨rfl, ne_of_lt hlt⟩
      · rintro ⟨-, hne⟩
        have hvne : v ≠ 0 := fun h0 => hne (by rw [h0, neg_zero])
        exact neg_lt_zero.2 (lt_of_le_of_ne hv0 (Ne.symm hvne))
    | false =>
      show v < 0 ↔ (false = true) ∧ v ≠ 0
      constructor
      · intro hlt
        exact absurd hlt (not_lt.2 hv0)
      · rintro ⟨hfalse, -⟩
        exact absurd hfalse (by simp)
  · intro s r m hr hcf hnf
    obtain ⟨v, hv0, hpa⟩ := parseAmount_nf s m hcf hnf
    rw [hr] at hpa
    injection hpa with hpa
    subst hpa
    cases hs : m.sign1 with
    | true =>
      show -v < 0 ↔ (true = true) ∧ -v ≠ 0
      constructor
      · intro hlt
        exact ⟨rfl, ne_of_lt hlt⟩
      · rintro ⟨-, hne⟩
        have hvne : v ≠ 0 := fun h0 => hne (by rw [h0, neg_zero])
        exact neg_lt_zero.2 (lt_of_le_of_ne hv0 (Ne.symm hvne))
    | false =>
      show v < 0 ↔ (false = true) ∧ v ≠ 0
      constructor
      · intro hlt
        exact absurd hlt (not_lt.2 hv0)
      · rintro ⟨hfalse, -⟩
        exact absurd hfalse (by simp)
  · intro s
    constructor
    · intro hnone
      cases hcf : currencyFirstMatch (trimBoth s) with
      | some m =>
        obtain ⟨v, hv0, hpa⟩ := parseAmount_cf s m hcf
        rw [hnone] at hpa
        exact absurd hpa (by simp)
      | none =>
        cases hnf : numberFirstMatch (trimBoth s) with
        | some m =>
          obtain ⟨v, hv0, hpa⟩ := parseAmount_nf s m hcf hnf
          rw [hnone] at hpa
          exact absurd hpa (by simp)
        | none => exact ⟨rfl, rfl⟩
    · rintro ⟨hcf, hnf⟩
      simp only [parseAmount, hcf, hnf]

theorem dropWhile_head_not (p : Str → Bool) : ∀ (l : List Str) (x : Str) (xs : List Str),
    l.dropWhile p = x :: xs → p x = false := by
  intro l
  induction l with
  | nil => intro x xs h; exact absurd h (by simp)
  | cons a rest ih =>
    intro x xs h
    rw [List.dropWhile_cons] at h
    by_cases ha : p a = true
    · rw [if_pos ha] at h
      exact ih x xs h
    · rw [if_neg ha] at h
      injection h with h1 _
      rw [← h1]
      exact Bool.not_eq_true _ ▸ ha

theorem blank_not_blockStart (line : Str) (h : (trimBoth line).isEmpty = true) :
    isCommentBlockStart line = false := by
  unfold isCommentBlockStart
  rw [List.isEmpty_iff.1 h]
  decide

/-- C8 counterexample: with "blank" read as the engine's own line classifier
reads it (whitespace-only), the input consisting of a comment, an empty line
and a whitespace-only line is returned unchanged, so the output ends in two
blank lines — the trailing collapse only recognises fully empty lines. -/
theorem C8_counterexample :
    formatHledgerJournal ("; a\n\n   ".toList) .noArg = "; a\n\n   ".toList ∧
    splitLines ("; a\n\n   ".toList) = ["; a".toList, [], "   ".toList] ∧
    (trimBoth ([] : Str)).isEmpty = true ∧ (trimBoth ("   ".toList)).isEmpty = true := by
  refine ⟨by decide, by decide, by decide, by decide⟩

/-- C8 (amended): reading "blank line" as a fully empty line, the emitted
line list of `formatHledgerJournal` (the list the function joins with
newlines) never starts with a blank line and retains at most one trailing
blank line; between transactions the loop enforces single blank separation:
flushing a transaction on a blank line emits the formatted transaction plus
exactly one blank separator, and afterwards every further blank line is
dropped until other content has been emitted. -/
theorem C8_blank_collapsing :
    (∀ text o, ∃ out : List Str,
      formatHledgerJournal text o = joinLines out ∧
      (out = [] ∨ ∃ l0 ls, out = l0 :: ls ∧ l0.isEmpty = false) ∧
      (out.reverse.takeWhile (fun l => l.isEmpty)).length ≤ 1) ∧
    (∀ o st line, st.inTransaction = false → st.lastWasTransaction = true →
      st.inCommentBlock = false → (trimBoth line).isEmpty = true →
      fmtStep o st line = ([], st)) ∧
    (∀ o st line, st.inTransaction = true → st.inCommentBlock = false →
      (trimBoth line).isEmpty = true →
      fmtStep o st line = (formatTransaction st.transactionLines o ++ [[]],
        { st with inTransaction := false, transactionLines := [],
                  lastWasTransaction := true, hasContent := true })) := by
  refine ⟨?_, ?_, ?_⟩
  · intro text o
    refine ⟨(popTrailRev ((fmtLines (normalizeFormatterOptions o) (splitLines text)
        initFmtState).dropWhile (fun l => List.isEmpty l)).reverse).reverse, rfl, ?_, ?_⟩
    · cases hL : (fmtLines (normalizeFormatterOptions o) (splitLines text)
          initFmtState).dropWhile (fun l => List.isEmpty l) with
      | nil =>
        left
        rfl
      | cons l0 ls =>
        right
        have hl0 : l0.isEmpty = false := dropWhile_head_not _ _ l0 ls hL
        unfold popTrailRev
        by_cases hk : ((l0 :: ls).reverse.takeWhile (fun l => l.isEmpty)).length = 0
        · rw [if_pos hk]
          rw [List.reverse_reverse]
          exact ⟨l0, ls, rfl, hl0⟩
        · rw [if_neg hk]
          cases hrest : (l0 :: ls).reverse.dropWhile (fun l => l.isEmpty) with
          | nil =>
            exfalso
            have hall := List.dropWhile_eq_nil_iff.1 hrest
            have := hall l0 (by rw [List.mem_reverse]; exact List.mem_cons_self _ _)
            rw [hl0] at this
            exact Bool.noConfusion this
          | cons r0 rs =>
            have hdecomp := List.takeWhile_append_dropWhile
              (fun l => (l : Str).isEmpty) (l0 :: ls).reverse
            rw [hrest] at hdecomp
            have hLrev : l0 :: ls = (r0 :: rs).reverse ++
                ((l0 :: ls).reverse.takeWhile (fun l => List.isEmpty l)).reverse := by
              conv_lhs => rw [← List.reverse_reverse (l0 :: ls), ← hdecomp]
              rw [List.reverse_append]
            cases hrr : (r0 :: rs).reverse with
            | nil => exact absurd hrr (by simp)
            | cons q0 qs =>
              rw [hrr] at hLrev
              have hq0 : q0 = l0 := by
                rw [List.cons_append] at hLrev
                injection hLrev with h1 _
                exact h1.symm
              refine ⟨l0, qs ++ [[]], ?_, hl0⟩
              show ([] :: r0 :: rs).reverse = l0 :: (qs ++ [[]])
              rw [List.reverse_cons, hrr, hq0]
              rfl
    · cases hL : (fmtLines (normalizeFormatterOptions o) (splitLines text)
          initFmtState).dropWhile (fun l => List.isEmpty l) with
      | nil =>
        simp [popTrailRev]
      | cons l0 ls =>
        have hl0 : l0.isEmpty = false := dropWhile_head_not _ _ l0 ls hL
        rw [List.reverse_reverse]
        unfold popTrailRev
        by_cases hk : ((l0 :: ls).reverse.takeWhile (fun l => l.isEmpty)).length = 0
        · rw [if_pos hk]
          have hk2 : (@List.takeWhile Str (fun l => List.isEmpty l) (l0 :: ls).reverse).length =
              0 := hk
          omega
        · rw [if_neg hk]
          cases hrest : (l0 :: ls).reverse.dropWhile (fun l => l.isEmpty) with
          | nil =>
            exfalso
            have hall := List.dropWhile_eq_nil_iff.1 hrest
            have := hall l0 (by rw [List.mem_reverse]; exact List.mem_cons_self _ _)
            rw [hl0] at this
            exact Bool.noConfusion this
          | cons r0 rs =>
            have hr0 : r0.isEmpty = false := dropWhile_head_not _ _ r0 rs hrest
            rw [List.takeWhile_cons]
            simp only [List.isEmpty_nil, if_true]
            rw [List.takeWhile_cons, hr0]
            simp
  · intro o st line h1 h2 h3 h4
    unfold fmtStep
    rw [blank_not_blockStart line h4]
    simp [h1, h2, h3, h4]
  · intro o st line h1 h2 h3
    unfold fmtStep
    rw [blank_not_blockStart line h3]
    simp [h1, h2, h3]

end HledgerFmt
